import Mathlib

/-!
A verification development for the `writable-dom` streaming DOM-mirroring
engine (`src/index.ts`).

The engine feeds markup chunks to a detached parser document, walks the
resulting parse tree with a `TreeWalker`, and mirrors each parse-tree node
into a live target container.  Classic external scripts and applicable
stylesheets block the walk until their `load`/`error` event; while blocked, a
lookahead scan inserts self-removing preload `<link>` hints.  `close()`
flushes trailing inline text and returns a completion promise; `abort()`
removes the blocked live node.

The embedding below models:
* the parse tree as a list of nodes in document (pre-order) order, grown by
  parse events (`doc.write` appending nodes, or extending the data of the
  still-open last text node);
* the live target as an ordered list of inserted live entries (mirrored
  clones, inline-flushed text nodes, preload hints), each with its parent;
* the session closure state (`walker` cursor, `scanNode`, `pendingText`,
  `inlineHostNode`, `isBlocked`, `resolve`) as an explicit structure, with
  `write`/`abort`/`close` and the load/error callbacks as step functions;
* `evalScript`'s `document.currentScript` descriptor juggling as a separate
  small state machine.
-/

/-- An element of the parse tree, carrying exactly the attributes/properties
that `index.ts` inspects (`isBlocking`, `getPreloadLink`, `isInlineHost`,
`evalScript`).  `srcAttr = some u` models a present `src` attribute whose
resolved `src` property is `u` (absent attribute gives the falsy `""`
property).  `typeAttr`/`mediaAttr`/`srcsetAttr`/`integrityAttr` model the
attribute (`none` = absent, the corresponding DOM property defaulting to
`""`); `crossOriginAttr` models the `crossOrigin` property (`null` when
absent).  `relAttr`, `hrefAttr` and `sizesAttr` model the `rel`, `href` and
`sizes` properties (`""` when absent). -/
structure Elem where
  tag : String
  srcAttr : Option String
  typeAttr : Option String
  noModule : Bool
  hasAsync : Bool
  hasDefer : Bool
  relAttr : String
  mediaAttr : Option String
  hrefAttr : String
  srcsetAttr : Option String
  sizesAttr : String
  integrityAttr : Option String
  crossOriginAttr : Option String
  deriving DecidableEq, Repr

/-- A plain element with a given tag and no attributes set, used to build
concrete test inputs. -/
def plainElem (tag : String) : Elem :=
  { tag := tag, srcAttr := none, typeAttr := none, noModule := false
    hasAsync := false, hasDefer := false, relAttr := "", mediaAttr := none
    hrefAttr := "", srcsetAttr := none, sizesAttr := "", integrityAttr := none
    crossOriginAttr := none }

/-- The payload of a parse-tree node: text, element, or comment
(`index.ts` distinguishes `Node.TEXT_NODE` from everything else; elements
are further classified by tag). -/
inductive NodeData where
  | text (data : String)
  | elem (e : Elem)
  | comment (data : String)
  deriving DecidableEq, Repr

/-- `node.nodeType === Node.TEXT_NODE` (line 150). -/
def isTextData : NodeData → Bool
  | .text _ => true
  | _ => false

/-- The `script.type` property: the `type` attribute's value, `""` when the
attribute is absent. -/
def scriptTypeProp (e : Elem) : String := e.typeAttr.getD ""

/-- `isBlocking` (lines 267-282): a classic external script (present `src`,
none of `noModule` / `type="module"` / `async` / `defer`), or a stylesheet
link whose media query is absent/empty or matches.  `env` is the set of
media-query strings that `matchMedia(·).matches` reports as matching. -/
def isBlockingElem (env : List String) (e : Elem) : Bool :=
  (e.tag == "SCRIPT" && e.srcAttr.isSome &&
    !(e.noModule || scriptTypeProp e == "module" || e.hasAsync || e.hasDefer))
  || (e.tag == "LINK" && e.relAttr == "stylesheet" &&
      (e.mediaAttr.getD "" == "" || env.contains (e.mediaAttr.getD "")))

/-- `isBlocking` on an arbitrary node: the `node.nodeType === Node.ELEMENT_NODE`
guard (line 269) restricts it to elements. -/
def isBlockingData (env : List String) (d : NodeData) : Bool :=
  match d with
  | .elem e => isBlockingElem env e
  | _ => false

/-- `isInlineHost` (lines 361-367): a script with no `src`, or a style
element. -/
def isInlineHostElem (e : Elem) : Bool :=
  (e.tag == "SCRIPT" && e.srcAttr.isNone) || e.tag == "STYLE"

/-- `isInlineHost` on an arbitrary node (tagName is undefined on non-elements,
so both comparisons are false). -/
def isInlineHostData : NodeData → Bool
  | .elem e => isInlineHostElem e
  | _ => false

/-- `node instanceof HTMLScriptElement` for a parse/clone node. -/
def isScriptData : NodeData → Bool
  | .elem e => e.tag == "SCRIPT"
  | _ => false

/-- The preload `<link>` element built by `getPreloadLink` (lines 284-336):
the fields assigned there (`rel`, `as`, `href`, `imageSrcset`, `imageSizes`,
`integrity`, `crossOrigin`). -/
structure LinkDesc where
  relOut : String
  asOut : Option String
  hrefOut : Option String
  imageSrcsetOut : Option String
  imageSizesOut : Option String
  integrityOut : Option String
  crossOriginOut : Option String
  deriving DecidableEq, Repr

/-- `getPreloadLink` (lines 284-336), restricted to elements by the
`node.nodeType === Node.ELEMENT_NODE` guard.  Returns the link to insert, or
`none` when the node is not an eligible loadable resource. -/
def getPreloadLinkElem (env : List String) (e : Elem) : Option LinkDesc :=
  let base : Option LinkDesc :=
    if e.tag == "SCRIPT" then
      if e.srcAttr.isSome && !e.noModule then
        if e.typeAttr == some "module" then
          some { relOut := "modulepreload", asOut := none, hrefOut := e.srcAttr
                 imageSrcsetOut := none, imageSizesOut := none
                 integrityOut := none, crossOriginOut := none }
        else
          some { relOut := "preload", asOut := some "script", hrefOut := e.srcAttr
                 imageSrcsetOut := none, imageSizesOut := none
                 integrityOut := none, crossOriginOut := none }
      else none
    else if e.tag == "LINK" then
      if e.relAttr == "stylesheet" &&
          (e.mediaAttr.getD "" == "" || env.contains (e.mediaAttr.getD "")) then
        some { relOut := "preload", asOut := some "style", hrefOut := some e.hrefAttr
               imageSrcsetOut := none, imageSizesOut := none
               integrityOut := none, crossOriginOut := none }
      else none
    else if e.tag == "IMG" then
      if e.srcsetAttr.getD "" == "" then
        some { relOut := "preload", asOut := some "image"
               hrefOut := some (e.srcAttr.getD "")
               imageSrcsetOut := none, imageSizesOut := none
               integrityOut := none, crossOriginOut := none }
      else
        some { relOut := "preload", asOut := some "image", hrefOut := none
               imageSrcsetOut := e.srcsetAttr, imageSizesOut := some e.sizesAttr
               integrityOut := none, crossOriginOut := none }
    else none
  base.map fun l =>
    { l with
      integrityOut := if e.integrityAttr.getD "" == "" then l.integrityOut else e.integrityAttr
      crossOriginOut := if e.crossOriginAttr.isSome then e.crossOriginAttr else l.crossOriginOut }

/-- `getPreloadLink` on an arbitrary node. -/
def getPreloadLinkData (env : List String) (d : NodeData) : Option LinkDesc :=
  match d with
  | .elem e => getPreloadLinkElem env e
  | _ => none

/-- A node of the detached parse tree.  `parent = none` means the tree root
(the detached `<template>` content, whose mapped live node is the target
container); `parent = some j` points at the node at index `j` of the
pre-order node list. -/
structure PNode where
  parent : Option Nat
  data : NodeData
  deriving DecidableEq, Repr

/-- Node lookup with a harmless default (lookups in the development are
always guarded by index bounds). -/
def nodeAt (P : List PNode) (i : Nat) : PNode :=
  P.getD i ⟨none, .comment ""⟩

example : isBlockingElem [] { plainElem "SCRIPT" with srcAttr := some "x" } = true := by decide
example : isBlockingElem [] { plainElem "SCRIPT" with srcAttr := some "x", hasDefer := true } = false := by
  decide
example : isBlockingElem [] { plainElem "LINK" with relAttr := "stylesheet", mediaAttr := some "print" } = false := by
  decide
example : isBlockingElem ["print"] { plainElem "LINK" with relAttr := "stylesheet", mediaAttr := some "print" } = true := by
  decide
example : isInlineHostElem (plainElem "SCRIPT") = true := by decide
example : isInlineHostElem { plainElem "SCRIPT" with srcAttr := some "x" } = false := by decide
example : (getPreloadLinkElem [] { plainElem "IMG" with srcAttr := some "i.png" }).isSome = true := by
  decide
example : getPreloadLinkElem [] (plainElem "P") = none := by decide

/-- Identity of a node inserted into the live target:
* `clone i` — the shallow clone (`document.importNode(node, false)`, line 148)
  of parse node `i`, inserted at lines 184-188;
* `moved i` — the parse text node `i` itself, moved into its live inline host
  by `appendInlineTextIfNeeded` (lines 347/356);
* `preload i` — the preload hint link built for parse node `i`
  (lines 136-142). -/
inductive LiveId where
  | clone (i : Nat)
  | moved (i : Nat)
  | preload (i : Nat)
  deriving DecidableEq, Repr

/-- Content of a live entry: mirrored node data, or a preload link. -/
inductive LData where
  | nodeContent (d : NodeData)
  | preloadContent (l : LinkDesc)
  deriving DecidableEq, Repr

/-- One node inserted into the live tree.  `parentL = none` means it was
inserted directly into the target container (always before the session's
fixed `nextSibling`, line 141/185, so sibling order under the target is the
insertion order); `parentL = some id` means it was appended as the last
child of that live node.  The flat insertion-ordered list of entries
determines the live tree shape: children of a parent appear in list order. -/
structure LEntry where
  id : LiveId
  parentL : Option LiveId
  content : LData
  deriving DecidableEq, Repr

/-- The session closure state of `writableDOM` (lines 85-95), plus the
observable history logs:
* `parsed` — the detached parse tree as its pre-order node list (the
  incremental parser only ever appends nodes at the end of document order,
  and `moreText` extends the still-open last text node);
* `walkerPos` — the `TreeWalker` cursor: `0` = at the root, `k+1` =
  `currentNode` is parse node `k`;
* `scanPos` — `scanNode` (line 92): `some e` means the lookahead last
  stopped with `scanNode` = parse node `e - 1`;
* `pendingText`, `inlineHost` — parse indices behind `pendingText` (line 91)
  and `inlineHostNode` (line 95; always the live clone of an element, since
  the target container itself is not a script/style element);
* `isBlocked`, `blockedHandler` — the blocked flag (line 94) and the parse
  index of the clone carrying the pending one-shot `onload`/`onerror`
  callback (lines 157-161);
* `closeWaiter`, `resolved` — whether `close()` stored `resolve` (line 122)
  and whether the returned promise has resolved;
* `live` — the live entries inserted into the target, in insertion order;
* `scanLog`/`hintLog` — parse indices visited by the lookahead scan, and
  those that received a preload hint;
* `evals` — parse indices passed to `evalScript`, in call order. -/
structure SState where
  parsed : List PNode
  walkerPos : Nat
  scanPos : Option Nat
  pendingText : Option Nat
  inlineHost : Option Nat
  isBlocked : Bool
  blockedHandler : Option Nat
  closeWaiter : Bool
  resolved : Bool
  live : List LEntry
  scanLog : List Nat
  hintLog : List Nat
  evals : List Nat
  deriving DecidableEq, Repr

/-- `appendInlineTextIfNeeded` (lines 338-359): when both a pending text and
an inline host exist, the parse text node itself is appended into the live
host (carrying its current parse data); otherwise nothing happens.  The
temporary `type="reframed-inert-script"` swap around the append (lines
344-353) is restored before returning, so the final structure carries the
original data. -/
def flushEntries (P : List PNode) (pending host : Option Nat) : List LEntry :=
  match pending, host with
  | some pt, some h => [⟨.moved pt, some (.clone h), .nodeContent (nodeAt P pt).data⟩]
  | _, _ => []

/-- `if (inlineHostNode && inlineHostNode instanceof HTMLScriptElement)
evalScript(inlineHostNode)` (lines 173-175 and 117-119). -/
def hostEvals (P : List PNode) (host : Option Nat) : List Nat :=
  match host with
  | some h => if isScriptData (nodeAt P h).data then [h] else []
  | none => []

/-- The non-inline-host branch of the walk loop body (lines 171-201):
flush the previous pending text into the previous inline host, evaluate that
host if it is a script, clear the inline host, insert the clone (under the
target when the parse parent is the root, else as the parent clone's last
child), and evaluate the clone if it is an external script.  The temporary
`type="reframed-inert-script"` swap (lines 178-195) is restored right after
insertion, so the inserted entry carries the original node data. -/
def insertMirror (P : List PNode) (i : Nat) (prevPending prevHost : Option Nat)
    (parentLive : Option LiveId) (st : SState) : SState :=
  let n := nodeAt P i
  let selfEv : List Nat :=
    if isScriptData n.data && !isInlineHostData n.data then [i] else []
  { st with
    inlineHost := none
    live := st.live ++ flushEntries P prevPending prevHost
      ++ [⟨.clone i, parentLive, .nodeContent n.data⟩]
    evals := st.evals ++ hostEvals P prevHost ++ selfEv }

/-- One iteration of the unblocked walk loop (lines 147-203): advance the
walker to parse node `i = walkerPos`, clone it shallowly, update
`pendingText`/`isBlocked` and install the one-shot resume callback on a
blocking clone, look the live parent up in the shadow mapping
(root ↦ target; parse node `j` ↦ its clone, registered at line 167 when `j`
was processed, hence available exactly for `j < i`), then either record the
parent as the inline host (line 170) or run `insertMirror`.  A failed
parent lookup (parent not yet mirrored — impossible for parser-produced
pre-order streams) mirrors nothing. -/
def mirrorNode (env : List String) (st : SState) : SState :=
  let i := st.walkerPos
  let P := st.parsed
  let n := nodeAt P i
  let prevPending := st.pendingText
  let prevHost := st.inlineHost
  let base : SState :=
    { st with
      walkerPos := i + 1
      pendingText := if isTextData n.data then some i else none
      isBlocked :=
        if isTextData n.data then st.isBlocked
        else (st.isBlocked || isBlockingData env n.data)
      blockedHandler :=
        if !isTextData n.data && isBlockingData env n.data then some i
        else st.blockedHandler }
  match n.parent with
  | none => insertMirror P i prevPending prevHost none base
  | some j =>
    if j < i then
      if isInlineHostData (nodeAt P j).data then
        { base with inlineHost := some j }
      else
        insertMirror P i prevPending prevHost (some (.clone j)) base
    else base

/-- The preload hint entries created for parse indices in
`[start, stop)` (lines 135-143): one self-removing link per node for which
`getPreloadLink` returns an element. -/
def hintEntriesIn (env : List String) (P : List PNode) (start stop : Nat) : List LEntry :=
  (List.range' start (stop - start)).filterMap fun j =>
    (getPreloadLinkData env (nodeAt P j).data).map fun l =>
      ⟨.preload j, none, .preloadContent l⟩

/-- The blocked branch of `walk` (lines 129-145): remember the blocked
`currentNode`, move the walker to `scanNode` if set, scan every remaining
parse node, inserting a preload hint into the target for each eligible one
and advancing `scanNode`, then restore the walker to the blocked node. -/
def scanAhead (env : List String) (st : SState) : SState :=
  let len := st.parsed.length
  let start := st.scanPos.getD st.walkerPos
  { st with
    live := st.live ++ hintEntriesIn env st.parsed start len
    scanLog := st.scanLog ++ List.range' start (len - start)
    hintLog := st.hintLog ++ (List.range' start (len - start)).filter
      (fun j => (getPreloadLinkData env (nodeAt st.parsed j).data).isSome)
    scanPos := if start < len then some len else st.scanPos }

theorem mirrorNode_parsed (env : List String) (st : SState) :
    (mirrorNode env st).parsed = st.parsed := by
  simp only [mirrorNode, insertMirror]
  repeat' split
  all_goals rfl

theorem mirrorNode_walkerPos (env : List String) (st : SState) :
    (mirrorNode env st).walkerPos = st.walkerPos + 1 := by
  simp only [mirrorNode, insertMirror]
  repeat' split
  all_goals rfl

/-- The unblocked walk loop (lines 147-210): process parse nodes one at a
time until the walker is exhausted or a node blocked this pass (in which
case lookahead scanning runs, line 205); on exhaustion, signal the stored
`close()` resolver if any (line 209). -/
def walkAux (env : List String) (st : SState) : SState :=
  if _h : st.walkerPos < st.parsed.length then
    if (mirrorNode env st).isBlocked then scanAhead env (mirrorNode env st)
    else walkAux env (mirrorNode env st)
  else if st.closeWaiter then { st with resolved := true } else st
termination_by st.parsed.length - st.walkerPos
decreasing_by
  rw [mirrorNode_parsed, mirrorNode_walkerPos]; omega

/-- `walk()` (lines 127-211): lookahead scan when blocked, mirror loop
otherwise. -/
def walk (env : List String) (st : SState) : SState :=
  if st.isBlocked then scanAhead env st else walkAux env st

/-- One event of the incremental parser (`doc.write(chunk)`): either a new
node appended at the end of document order, or more character data appended
to the still-open last text node. -/
inductive ParseEvent where
  | node (parent : Option Nat) (d : NodeData)
  | moreText (s : String)
  deriving DecidableEq, Repr

/-- Append `s` to the data of the last node when it is a text node
(the parser keeps the last text node open across chunks); otherwise no
change. -/
def extendLastText (P : List PNode) (s : String) : List PNode :=
  match P.getLast? with
  | some n =>
    match n.data with
    | .text t => P.dropLast ++ [⟨n.parent, .text (t ++ s)⟩]
    | _ => P
  | none => P

def applyParseEvent (P : List PNode) : ParseEvent → List PNode
  | .node p d => P ++ [⟨p, d⟩]
  | .moreText s => extendLastText P s

def applyEvents (P : List PNode) (evs : List ParseEvent) : List PNode :=
  evs.foldl applyParseEvent P

/-- The pending-text refresh at the start of `write` (lines 101-105): when a
pending text node exists and no inline host is active, copy the parse text
node's current data onto its live clone. -/
def copyPending (st : SState) : SState :=
  match st.pendingText with
  | some pt =>
    if st.inlineHost.isNone then
      { st with live := st.live.map fun en =>
          if en.id = .clone pt then
            { en with content := .nodeContent (nodeAt st.parsed pt).data }
          else en }
    else st
  | none => st

/-- `write(chunk)` (lines 98-108): feed the chunk to the parser, refresh the
pending live text node, then walk. -/
def stepWrite (env : List String) (st : SState) (evs : List ParseEvent) : SState :=
  walk env (copyPending { st with parsed := applyEvents st.parsed evs })

/-- `abort()` (lines 109-113): when blocked, remove the live clone of the
walker's current node (the blocking node: in every reachable blocked state
`walkerPos ≥ 1` and node `walkerPos - 1` is the blocking node — proved
below); otherwise do nothing. -/
def stepAbort (st : SState) : SState :=
  if st.isBlocked then
    { st with live := st.live.filter fun en => en.id ≠ .clone (st.walkerPos - 1) }
  else st

/-- `close()` (lines 114-124): flush the pending text into the inline host,
evaluate the inline host if it is a script, and return a promise — already
resolved when not blocked, otherwise pending with its resolver stored. -/
def stepClose (st : SState) : SState :=
  let st1 : SState :=
    { st with
      live := st.live ++ flushEntries st.parsed st.pendingText st.inlineHost
      evals := st.evals ++ hostEvals st.parsed st.inlineHost }
  if st1.isBlocked then { st1 with closeWaiter := true }
  else { st1 with resolved := true }

/-- Delivery of the one-shot `load`/`error` event of the blocking clone
(lines 157-161): clear the blocked flag, then re-enter the walk only when
the clone still has a parent in the live tree (i.e. its entry was not
removed). -/
def stepBlockedEvent (env : List String) (st : SState) : SState :=
  match st.blockedHandler with
  | none => st
  | some b =>
    let st1 : SState := { st with isBlocked := false, blockedHandler := none }
    if st1.live.any (fun en => en.id == .clone b) then walk env st1 else st1

/-- Delivery of a preload hint's own `load`/`error` event (line 138):
`link.remove()`. -/
def stepPreloadEvent (st : SState) (j : Nat) : SState :=
  { st with live := st.live.filter fun en => en.id ≠ .preload j }

/-- The freshly constructed session (lines 85-95): empty parse tree, walker
at the root, no pending state. -/
def initState : SState :=
  { parsed := [], walkerPos := 0, scanPos := none, pendingText := none
    inlineHost := none, isBlocked := false, blockedHandler := none
    closeWaiter := false, resolved := false, live := [], scanLog := []
    hintLog := [], evals := [] }

/-- Feeding a sequence of chunks to `write`. -/
def runWrites (env : List String) (css : List (List ParseEvent)) : SState :=
  css.foldl (stepWrite env) initState

/-- Repeatedly deliver the outstanding blocking clone's `load`/`error` event
while the session stays blocked (every blocking resource eventually loads or
errors). -/
def drainRun (env : List String) : Nat → SState → SState
  | 0, st => st
  | fuel + 1, st =>
    if st.isBlocked then drainRun env fuel (stepBlockedEvent env st) else st

/-- The state of the `currentScript` own-property descriptor on the document
prototype (`Object.getPrototypeOf(Object.getPrototypeOf(scriptLoadingDocument))`,
lines 229-231): absent, the host's original descriptor (identified by an
opaque id), or the override installed by `evalScript` reporting script `si`
as current (lines 241-246). -/
inductive CurScriptDesc where
  | missing
  | original (d : Nat)
  | overrideFor (si : Nat)
  deriving DecidableEq, Repr

/-- The observable outcome of one `evalScript` call (lines 214-264):
the descriptor left on the prototype when the call returns, the descriptor
captured in `origCurrentScriptDesc`, whether `restoreCurrentScript` was
registered on the clone's `load` and `error` events (lines 253-263), whether
the `assert` fired its message (`console.assert` logs and returns — it does
not throw, lines 236-239 and 375-377), and whether the clone was appended to
the execution body (line 250, the step that triggers evaluation). -/
structure EvalOutcome where
  protoAfter : CurScriptDesc
  savedDesc : Option CurScriptDesc
  onLoadRestore : Bool
  onErrorRestore : Bool
  assertTriggered : Bool
  cloneAppended : Bool
  deriving DecidableEq, Repr

/-- `evalScript(scriptElement)` (lines 214-264) for the script element `e`
(identified as `si`), run against prototype descriptor state `proto`.
For a classic (`type != "module"`) non-external (`!src`) script it captures
the existing own descriptor, installs the override, and registers restoration
on both `load` and `error` of the clone — but only when a descriptor was
captured; when the descriptor is missing, `console.assert` logs its message
and execution continues, installing the override with nothing to restore.
For module or external scripts the whole descriptor block is skipped.  In
every case the clone is appended to the execution body. -/
def evalScriptModel (e : Elem) (si : Nat) (proto : CurScriptDesc) : EvalOutcome :=
  if (scriptTypeProp e != "module") && e.srcAttr.isNone then
    let orig : Option CurScriptDesc :=
      match proto with
      | .missing => none
      | d => some d
    { protoAfter := .overrideFor si
      savedDesc := orig
      onLoadRestore := orig.isSome
      onErrorRestore := orig.isSome
      assertTriggered := orig.isNone
      cloneAppended := true }
  else
    { protoAfter := proto, savedDesc := none, onLoadRestore := false
      onErrorRestore := false, assertTriggered := false, cloneAppended := true }

/-- The prototype descriptor after the evaluated clone's `load` event:
`restoreCurrentScript` re-defines the saved descriptor when it was
registered (lines 254-261). -/
def protoAfterLoad (o : EvalOutcome) : CurScriptDesc :=
  if o.onLoadRestore then
    match o.savedDesc with
    | some d => d
    | none => o.protoAfter
  else o.protoAfter

/-- The prototype descriptor after the evaluated clone's `error` event
(line 262). -/
def protoAfterError (o : EvalOutcome) : CurScriptDesc :=
  if o.onErrorRestore then
    match o.savedDesc with
    | some d => d
    | none => o.protoAfter
  else o.protoAfter

example :
    (evalScriptModel (plainElem "SCRIPT") 7 (.original 3)).protoAfter = .overrideFor 7 := by decide
example :
    protoAfterLoad (evalScriptModel (plainElem "SCRIPT") 7 (.original 3)) = .original 3 := by decide
example :
    (evalScriptModel { plainElem "SCRIPT" with srcAttr := some "u" } 7 (.original 3)).protoAfter
      = .original 3 := by decide

/-- `node.nodeType` is an element. -/
def isElemData : NodeData → Bool
  | .elem _ => true
  | _ => false

/-- A new node appended by the parser is well-formed when its parent already
exists (strictly earlier in document order), is an element, and — when that
parent is an inline host (script without `src`, or style) — the new node is
a text node (parsers produce only character data inside script/style). -/
def validNewNode (P : List PNode) (p : Option Nat) (d : NodeData) : Bool :=
  match p with
  | none => true
  | some j =>
    decide (j < P.length) && isElemData (nodeAt P j).data &&
      (!isInlineHostData (nodeAt P j).data || isTextData d)

/-- A parse-event stream is well-formed from tree `P` when every appended
node is valid for the tree built so far and `moreText` only occurs while the
last node is a still-open text node. -/
def wfEvents : List PNode → List ParseEvent → Bool
  | _, [] => true
  | P, .node p d :: evs => validNewNode P p d && wfEvents (P ++ [⟨p, d⟩]) evs
  | P, .moreText s :: evs =>
    (match P.getLast? with
     | some n => isTextData n.data
     | none => false) && wfEvents (extendLastText P s) evs

/-- Well-formedness of node `i` inside an already-built tree. -/
def wfNodeAt (P : List PNode) (i : Nat) : Bool :=
  match (nodeAt P i).parent with
  | none => true
  | some j =>
    decide (j < i) && isElemData (nodeAt P j).data &&
      (!isInlineHostData (nodeAt P j).data || isTextData (nodeAt P i).data)

/-- Well-formedness of a parse tree: every node's parent precedes it, is an
element, and inline hosts have only text children. -/
def wfParse (P : List PNode) : Bool :=
  (List.range P.length).all (wfNodeAt P)

/-- The first blocking parse index at or after `k` (the walk pauses right
after mirroring that node). -/
def findBlockFrom (env : List String) (P : List PNode) (k : Nat) : Option Nat :=
  if k < P.length then
    if isBlockingData env (nodeAt P k).data then some k
    else findBlockFrom env P (k + 1)
  else none
termination_by P.length - k

/-- Where a walk starting at `k` stops: just past the first blocking node,
or at the end of the currently parsed tree. -/
def stopFrom (env : List String) (P : List PNode) (k : Nat) : Nat :=
  match findBlockFrom env P k with
  | some b => b + 1
  | none => P.length

/-- The inline host recorded while processing node `i`: its parent, when the
parent is an already-mirrored inline host. -/
def parentHostIdx (P : List PNode) (i : Nat) : Option Nat :=
  match (nodeAt P i).parent with
  | none => none
  | some j => if j < i && isInlineHostData (nodeAt P j).data then some j else none

/-- The value of `pendingText` when the walker is about to process node `k`:
node `k - 1` when that previously processed node was text. -/
def prevPendingAt (P : List PNode) (k : Nat) : Option Nat :=
  match k with
  | 0 => none
  | i + 1 => if isTextData (nodeAt P i).data then some i else none

/-- The value of `inlineHostNode` when the walker is about to process node
`k`: set (or cleared) while processing node `k - 1`. -/
def prevHostAt (P : List PNode) (k : Nat) : Option Nat :=
  match k with
  | 0 => none
  | i + 1 => parentHostIdx P i

/-- The live parent under which node `i`'s clone is inserted (root parse
parent ↦ the target container). -/
def liveParentOf (P : List PNode) (i : Nat) : Option LiveId :=
  match (nodeAt P i).parent with
  | none => none
  | some j => some (.clone j)

/-- The live entries appended while the walk processes node `i`: nothing
when the parent is an inline host; otherwise the flush of the previous
pending text (if any) followed by node `i`'s clone. -/
def entriesAt (P : List PNode) (i : Nat) : List LEntry :=
  match parentHostIdx P i with
  | some _ => []
  | none =>
    flushEntries P (prevPendingAt P i) (prevHostAt P i) ++
      [⟨.clone i, liveParentOf P i, .nodeContent (nodeAt P i).data⟩]

/-- `evalScript` calls made while the walk processes node `i`: the previous
inline host when it was a script, then node `i` itself when it is an
external script. -/
def evalsAt (P : List PNode) (i : Nat) : List Nat :=
  match parentHostIdx P i with
  | some _ => []
  | none =>
    hostEvals P (prevHostAt P i) ++
      (if isScriptData (nodeAt P i).data && !isInlineHostData (nodeAt P i).data then [i]
       else [])

/-- Live entries appended while the walk processes nodes `[a, b)`. -/
def mirrorRange (P : List PNode) (a b : Nat) : List LEntry :=
  (List.range' a (b - a)).flatMap (entriesAt P)

/-- `evalScript` calls made while the walk processes nodes `[a, b)`. -/
def evalsRange (P : List PNode) (a b : Nat) : List Nat :=
  (List.range' a (b - a)).flatMap (evalsAt P)

/-- The nodes eligible for a preload hint. -/
def hintable (env : List String) (P : List PNode) (j : Nat) : Bool :=
  (getPreloadLinkData env (nodeAt P j).data).isSome

theorem hintable_eta (env : List String) (P : List PNode) :
    (fun j => (getPreloadLinkData env (nodeAt P j).data).isSome) = hintable env P := rfl

/-- The canonical session state reached after feeding the parse stream that
builds `P` through any sequence of `write` calls (no blocking event
delivered yet): the walker has mirrored everything up to and including the
first blocking node (or everything), and — when blocked — the lookahead has
scanned every remaining node. -/
def mirrorState (env : List String) (P : List PNode) : SState :=
  let stop := stopFrom env P 0
  { parsed := P
    walkerPos := stop
    scanPos :=
      match findBlockFrom env P 0 with
      | some b => if b + 1 < P.length then some P.length else none
      | none => none
    pendingText := prevPendingAt P stop
    inlineHost := prevHostAt P stop
    isBlocked := (findBlockFrom env P 0).isSome
    blockedHandler := findBlockFrom env P 0
    closeWaiter := false
    resolved := false
    live := mirrorRange P 0 stop ++
      (match findBlockFrom env P 0 with
       | some b => hintEntriesIn env P (b + 1) P.length
       | none => [])
    scanLog :=
      match findBlockFrom env P 0 with
      | some b => List.range' (b + 1) (P.length - (b + 1))
      | none => []
    hintLog :=
      match findBlockFrom env P 0 with
      | some b => (List.range' (b + 1) (P.length - (b + 1))).filter (hintable env P)
      | none => []
    evals := evalsRange P 0 stop }

theorem mirrorState_nil (env : List String) : mirrorState env [] = initState := by
  have h : findBlockFrom env [] 0 = none := by rw [findBlockFrom]; simp
  simp [mirrorState, stopFrom, h, mirrorRange, evalsRange, prevPendingAt, prevHostAt,
    initState]

theorem findBlockFrom_stop (env : List String) (P : List PNode) (k : Nat)
    (h : ¬ k < P.length) : findBlockFrom env P k = none := by
  rw [findBlockFrom]; simp [h]

theorem findBlockFrom_hit (env : List String) (P : List PNode) (k : Nat)
    (h : k < P.length) (hb : isBlockingData env (nodeAt P k).data = true) :
    findBlockFrom env P k = some k := by
  rw [findBlockFrom]; simp [h, hb]

theorem findBlockFrom_skip (env : List String) (P : List PNode) (k : Nat)
    (h : k < P.length) (hb : isBlockingData env (nodeAt P k).data = false) :
    findBlockFrom env P k = findBlockFrom env P (k + 1) := by
  rw [findBlockFrom]; simp [h, hb]

theorem findBlockFrom_some (env : List String) (P : List PNode) :
    ∀ k b, findBlockFrom env P k = some b →
      k ≤ b ∧ b < P.length ∧ isBlockingData env (nodeAt P b).data = true := by
  intro k
  induction' hg : P.length - k with m ih generalizing k
  all_goals intro b h
  all_goals rw [findBlockFrom] at h
  all_goals split at h
  case zero.isTrue hk => omega
  case zero.isFalse => cases h
  case succ.isTrue hk =>
    split at h
    case isTrue hb =>
      cases h
      exact ⟨Nat.le_refl _, hk, hb⟩
    case isFalse hb =>
      have := ih (k + 1) (by omega) b h
      exact ⟨by omega, this.2.1, this.2.2⟩
  case succ.isFalse => cases h

theorem findBlockFrom_none (env : List String) (P : List PNode) :
    ∀ k, findBlockFrom env P k = none →
      ∀ i, k ≤ i → i < P.length → isBlockingData env (nodeAt P i).data = false := by
  intro k
  induction' hg : P.length - k with m ih generalizing k
  all_goals intro h i hki hilen
  · omega
  · rw [findBlockFrom] at h
    split at h
    case isTrue hk =>
      split at h
      case isTrue => cases h
      case isFalse hb =>
        rcases Nat.eq_or_lt_of_le hki with rfl | hlt
        · exact Bool.of_not_eq_true hb
        · exact ih (k + 1) (by omega) h i hlt hilen
    case isFalse hk => omega

theorem findBlockFrom_min (env : List String) (P : List PNode) :
    ∀ k b, findBlockFrom env P k = some b →
      ∀ i, k ≤ i → i < b → isBlockingData env (nodeAt P i).data = false := by
  intro k
  induction' hg : P.length - k with m ih generalizing k
  all_goals intro b h i hki hib
  · rw [findBlockFrom] at h
    split at h
    · omega
    · cases h
  · rw [findBlockFrom] at h
    split at h
    case isTrue hk =>
      split at h
      case isTrue hb => cases h; omega
      case isFalse hb =>
        rcases Nat.eq_or_lt_of_le hki with rfl | hlt
        · exact Bool.of_not_eq_true hb
        · exact ih (k + 1) (by omega) b h i hlt hib
    case isFalse => cases h

theorem mirrorRange_empty (P : List PNode) (a b : Nat) (h : b ≤ a) :
    mirrorRange P a b = [] := by
  unfold mirrorRange
  have : b - a = 0 := by omega
  simp [this]

theorem evalsRange_empty (P : List PNode) (a b : Nat) (h : b ≤ a) :
    evalsRange P a b = [] := by
  unfold evalsRange
  have : b - a = 0 := by omega
  simp [this]

theorem mirrorRange_cons (P : List PNode) (a b : Nat) (h : a < b) :
    mirrorRange P a b = entriesAt P a ++ mirrorRange P (a + 1) b := by
  unfold mirrorRange
  have hb : b - a = (b - (a + 1)) + 1 := by omega
  rw [hb, List.range'_succ a (b - (a + 1)) 1]
  simp

theorem evalsRange_cons (P : List PNode) (a b : Nat) (h : a < b) :
    evalsRange P a b = evalsAt P a ++ evalsRange P (a + 1) b := by
  unfold evalsRange
  have hb : b - a = (b - (a + 1)) + 1 := by omega
  rw [hb, List.range'_succ a (b - (a + 1)) 1]
  simp

theorem mirrorRange_single (P : List PNode) (a : Nat) :
    mirrorRange P a (a + 1) = entriesAt P a := by
  rw [mirrorRange_cons P a (a + 1) (by omega), mirrorRange_empty P (a + 1) (a + 1) (by omega)]
  simp

theorem evalsRange_single (P : List PNode) (a : Nat) :
    evalsRange P a (a + 1) = evalsAt P a := by
  rw [evalsRange_cons P a (a + 1) (by omega), evalsRange_empty P (a + 1) (a + 1) (by omega)]
  simp

theorem range'_split (a b c : Nat) (hab : a ≤ b) (hbc : b ≤ c) :
    List.range' a (c - a) = List.range' a (b - a) ++ List.range' b (c - b) := by
  have h := List.range'_append a (b - a) (c - b) 1
  simp only [Nat.mul_one, Nat.one_mul] at h
  have ha : a + (b - a) = b := by omega
  have hn : (c - b) + (b - a) = c - a := by omega
  rw [ha, hn] at h
  exact h.symm

theorem mirrorRange_split (P : List PNode) (a b c : Nat) (hab : a ≤ b) (hbc : b ≤ c) :
    mirrorRange P a c = mirrorRange P a b ++ mirrorRange P b c := by
  unfold mirrorRange
  rw [range'_split a b c hab hbc, List.flatMap_append]

theorem evalsRange_split (P : List PNode) (a b c : Nat) (hab : a ≤ b) (hbc : b ≤ c) :
    evalsRange P a c = evalsRange P a b ++ evalsRange P b c := by
  unfold evalsRange
  rw [range'_split a b c hab hbc, List.flatMap_append]

theorem hintEntriesIn_split (env : List String) (P : List PNode) (a b c : Nat)
    (hab : a ≤ b) (hbc : b ≤ c) :
    hintEntriesIn env P a c = hintEntriesIn env P a b ++ hintEntriesIn env P b c := by
  unfold hintEntriesIn
  rw [range'_split a b c hab hbc, List.filterMap_append]

/-- A session state about to (re-)enter the unblocked mirror loop at parse
index `k`, with the pending text / inline host determined by node `k - 1`
and arbitrary accumulated history. -/
def readyState (P : List PNode) (k : Nat) (sp hb : Option Nat) (cw r : Bool)
    (L : List LEntry) (sl hl ev : List Nat) : SState :=
  { parsed := P, walkerPos := k, scanPos := sp
    pendingText := prevPendingAt P k, inlineHost := prevHostAt P k
    isBlocked := false, blockedHandler := hb, closeWaiter := cw, resolved := r
    live := L, scanLog := sl, hintLog := hl, evals := ev }

theorem mirrorNode_ready (env : List String) (P : List PNode) (k : Nat)
    (sp hb : Option Nat) (cw r : Bool) (L : List LEntry) (sl hl ev : List Nat)
    (hwf : wfNodeAt P k = true) :
    mirrorNode env (readyState P k sp hb cw r L sl hl ev) =
      { parsed := P, walkerPos := k + 1, scanPos := sp
        pendingText := prevPendingAt P (k + 1), inlineHost := prevHostAt P (k + 1)
        isBlocked := isBlockingData env (nodeAt P k).data
        blockedHandler := if isBlockingData env (nodeAt P k).data then some k else hb
        closeWaiter := cw, resolved := r
        live := L ++ entriesAt P k, scanLog := sl, hintLog := hl
        evals := ev ++ evalsAt P k } := by
  unfold wfNodeAt at hwf
  simp only [mirrorNode, insertMirror, readyState, entriesAt, evalsAt, prevPendingAt,
    prevHostAt, parentHostIdx, liveParentOf]
  rcases hp : (nodeAt P k).parent with _ | j
  · simp only [hp]
    rcases hd : (nodeAt P k).data with s | e | s <;>
      simp [isTextData, isBlockingData, isScriptData, isInlineHostData]
  · rw [hp] at hwf
    simp only [Bool.and_eq_true, decide_eq_true_eq] at hwf
    have hj : j < k := hwf.1.1
    have helem := hwf.1.2
    obtain ⟨ej, hdj⟩ : ∃ ej, (nodeAt P j).data = .elem ej := by
      rcases hx : (nodeAt P j).data with s | e2 | s
      · rw [hx] at helem; simp [isElemData] at helem
      · exact ⟨e2, rfl⟩
      · rw [hx] at helem; simp [isElemData] at helem
    by_cases hih : isInlineHostElem ej = true
    · rcases hd : (nodeAt P k).data with s | e | s <;>
        simp [hp, hdj, isTextData, isBlockingData, isScriptData, isInlineHostData,
          hj, hih]
    · simp only [Bool.not_eq_true] at hih
      rcases hd : (nodeAt P k).data with s | e | s <;>
        simp [hp, hdj, isTextData, isBlockingData, isScriptData, isInlineHostData,
          hj, hih]

/-- Characterization of the unblocked walk loop from an arbitrary resume
point `k`: it mirrors every node up to (and including) the next blocking
node — then scans ahead for preloads — or up to the end of the parsed tree,
signalling the stored close resolver. -/
theorem walkAux_ready (env : List String) (P : List PNode) (hWF : wfParse P = true) :
    ∀ k, k ≤ P.length →
      ∀ (sp hb : Option Nat) (cw r : Bool) (L : List LEntry) (sl hl ev : List Nat),
        walkAux env (readyState P k sp hb cw r L sl hl ev) =
          match findBlockFrom env P k with
          | none =>
            { parsed := P, walkerPos := P.length, scanPos := sp
              pendingText := prevPendingAt P P.length
              inlineHost := prevHostAt P P.length
              isBlocked := false, blockedHandler := hb, closeWaiter := cw
              resolved := r || cw
              live := L ++ mirrorRange P k P.length, scanLog := sl, hintLog := hl
              evals := ev ++ evalsRange P k P.length }
          | some b =>
            { parsed := P, walkerPos := b + 1
              scanPos := if sp.getD (b + 1) < P.length then some P.length else sp
              pendingText := prevPendingAt P (b + 1)
              inlineHost := prevHostAt P (b + 1)
              isBlocked := true, blockedHandler := some b, closeWaiter := cw
              resolved := r
              live := L ++ mirrorRange P k (b + 1) ++
                hintEntriesIn env P (sp.getD (b + 1)) P.length
              scanLog := sl ++
                List.range' (sp.getD (b + 1)) (P.length - sp.getD (b + 1))
              hintLog := hl ++
                (List.range' (sp.getD (b + 1)) (P.length - sp.getD (b + 1))).filter
                  (hintable env P)
              evals := ev ++ evalsRange P k (b + 1) } := by
  intro k
  induction' hn : P.length - k with m ih generalizing k
  all_goals intro hk sp hb cw r L sl hl ev
  · have hkl : k = P.length := by omega
    subst hkl
    rw [walkAux, findBlockFrom_stop env P P.length (by omega)]
    rw [dif_neg (show ¬ (readyState P P.length sp hb cw r L sl hl ev).walkerPos <
      (readyState P P.length sp hb cw r L sl hl ev).parsed.length by
        simp [readyState])]
    cases cw <;>
      simp [readyState, mirrorRange_empty P P.length P.length (Nat.le_refl _),
        evalsRange_empty P P.length P.length (Nat.le_refl _)]
  · have hlt : k < P.length := by omega
    have hwfk : wfNodeAt P k = true := by
      have hall := hWF
      simp only [wfParse, List.all_eq_true] at hall
      exact hall k (List.mem_range.mpr hlt)
    rw [walkAux]
    rw [dif_pos (show (readyState P k sp hb cw r L sl hl ev).walkerPos <
      (readyState P k sp hb cw r L sl hl ev).parsed.length by simpa [readyState] using hlt)]
    rw [mirrorNode_ready env P k sp hb cw r L sl hl ev hwfk]
    by_cases hbk : isBlockingData env (nodeAt P k).data = true
    · rw [findBlockFrom_hit env P k hlt hbk]
      simp only [hbk, if_true]
      simp [scanAhead, hintable_eta, mirrorRange_single, evalsRange_single]
    · have hbk' : isBlockingData env (nodeAt P k).data = false := by
        simpa using hbk
      rw [findBlockFrom_skip env P k hlt hbk']
      simp only [hbk', Bool.false_eq_true, if_false]
      have hfold :
          ({ parsed := P, walkerPos := k + 1, scanPos := sp
             pendingText := prevPendingAt P (k + 1), inlineHost := prevHostAt P (k + 1)
             isBlocked := false
             blockedHandler := hb
             closeWaiter := cw, resolved := r
             live := L ++ entriesAt P k, scanLog := sl, hintLog := hl
             evals := ev ++ evalsAt P k } : SState) =
          readyState P (k + 1) sp hb cw r (L ++ entriesAt P k) sl hl (ev ++ evalsAt P k) := rfl
      rw [hfold]
      rw [ih (k + 1) (by omega) (by omega) sp hb cw r (L ++ entriesAt P k) sl hl
        (ev ++ evalsAt P k)]
      rcases hfb : findBlockFrom env P (k + 1) with _ | b <;> simp only [hfb]
      · simp [mirrorRange_cons P k P.length hlt, evalsRange_cons P k P.length hlt]
      · have hb1 := findBlockFrom_some env P (k + 1) b hfb
        simp [mirrorRange_cons P k (b + 1) (by omega), evalsRange_cons P k (b + 1) (by omega)]

theorem nodeAt_append_lt (P Q : List PNode) (i : Nat) (h : i < P.length) :
    nodeAt (P ++ Q) i = nodeAt P i := by
  simp [nodeAt, List.getD, List.getElem?_append, h]

theorem nodeAt_append_self (P : List PNode) (x : PNode) :
    nodeAt (P ++ [x]) P.length = x := by
  simp [nodeAt, List.getD, List.getElem?_append]

theorem length_pos_of_getLast (P : List PNode) (n : PNode) (h : P.getLast? = some n) :
    0 < P.length := by
  cases P <;> simp_all

theorem nodeAt_getLast (P : List PNode) (n : PNode) (h : P.getLast? = some n) :
    nodeAt P (P.length - 1) = n := by
  have hg := List.getLast?_eq_getElem? P
  rw [h] at hg
  simp [nodeAt, List.getD, ← hg]

theorem extendLastText_shape (P : List PNode) (n : PNode) (t s : String)
    (h : P.getLast? = some n) (ht : n.data = .text t) :
    extendLastText P s = P.dropLast ++ [⟨n.parent, .text (t ++ s)⟩] := by
  unfold extendLastText
  simp [h, ht]

theorem extendLastText_length (P : List PNode) (s : String) :
    (extendLastText P s).length = P.length := by
  unfold extendLastText
  split
  next n heq =>
    split
    next t ht2 =>
      have hp := length_pos_of_getLast P n heq
      simp [List.length_dropLast]
      omega
    next => rfl
  next => rfl

theorem extendLastText_nodeAt_lt (P : List PNode) (s : String) (i : Nat)
    (h : i + 1 < P.length) :
    nodeAt (extendLastText P s) i = nodeAt P i := by
  unfold extendLastText
  split
  next n heq =>
    split
    next t ht2 =>
      have hp := length_pos_of_getLast P n heq
      have hd : i < P.dropLast.length := by
        simp [List.length_dropLast]; omega
      rw [nodeAt_append_lt _ _ i hd, List.dropLast_eq_take]
      have hi : i < P.length - 1 := by omega
      simp [nodeAt, List.getD, List.getElem?_take, hi,
        List.getElem?_eq_getElem (show i < P.length by omega)]
    next => rfl
  next => rfl

theorem extendLastText_nodeAt_last (P : List PNode) (n : PNode) (t s : String)
    (h : P.getLast? = some n) (ht : n.data = .text t) :
    nodeAt (extendLastText P s) (P.length - 1) = ⟨n.parent, .text (t ++ s)⟩ := by
  rw [extendLastText_shape P n t s h ht]
  have hp := length_pos_of_getLast P n h
  have hl : P.length - 1 = P.dropLast.length := by simp [List.length_dropLast]
  rw [hl, nodeAt_append_self]

/-- How a node's payload can evolve as later chunks arrive: unchanged, or a
text node whose data has been appended to. -/
def dataExt (d d' : NodeData) : Prop :=
  d = d' ∨ ∃ t r, d = .text t ∧ d' = .text (t ++ r)

theorem dataExt_refl (d : NodeData) : dataExt d d := Or.inl rfl

theorem dataExt_trans {a b c : NodeData} (h1 : dataExt a b) (h2 : dataExt b c) :
    dataExt a c := by
  rcases h1 with rfl | ⟨t, r, rfl, rfl⟩
  · exact h2
  · rcases h2 with rfl | ⟨t2, r2, he, rfl⟩
    · exact Or.inr ⟨t, r, rfl, rfl⟩
    · cases he
      exact Or.inr ⟨t, r ++ r2, rfl, by rw [String.append_assoc]⟩

theorem dataExt_isText {d d' : NodeData} (h : dataExt d d') :
    isTextData d' = isTextData d := by
  rcases h with rfl | ⟨t, r, rfl, rfl⟩ <;> rfl

theorem dataExt_isElem {d d' : NodeData} (h : dataExt d d') :
    isElemData d' = isElemData d := by
  rcases h with rfl | ⟨t, r, rfl, rfl⟩ <;> rfl

theorem dataExt_isBlocking {d d' : NodeData} (env : List String) (h : dataExt d d') :
    isBlockingData env d' = isBlockingData env d := by
  rcases h with rfl | ⟨t, r, rfl, rfl⟩ <;> rfl

theorem dataExt_isInlineHost {d d' : NodeData} (h : dataExt d d') :
    isInlineHostData d' = isInlineHostData d := by
  rcases h with rfl | ⟨t, r, rfl, rfl⟩ <;> rfl

theorem dataExt_isScript {d d' : NodeData} (h : dataExt d d') :
    isScriptData d' = isScriptData d := by
  rcases h with rfl | ⟨t, r, rfl, rfl⟩ <;> rfl

theorem dataExt_preload {d d' : NodeData} (env : List String) (h : dataExt d d') :
    getPreloadLinkData env d' = getPreloadLinkData env d := by
  rcases h with rfl | ⟨t, r, rfl, rfl⟩ <;> rfl

/-- `P'` is the parse tree `P` grown by later chunks: longer, all but the
last original node untouched, the last original node's parent and kind
untouched with possibly extended text data. -/
def treeExt (P P' : List PNode) : Prop :=
  P.length ≤ P'.length ∧
  (∀ i, i + 1 < P.length → nodeAt P' i = nodeAt P i) ∧
  (∀ i, i < P.length →
    (nodeAt P' i).parent = (nodeAt P i).parent ∧
      dataExt (nodeAt P i).data (nodeAt P' i).data)

theorem treeExt_refl (P : List PNode) : treeExt P P :=
  ⟨Nat.le_refl _, fun _ _ => rfl, fun _ _ => ⟨rfl, dataExt_refl _⟩⟩

theorem treeExt_trans {P Q R : List PNode} (h1 : treeExt P Q) (h2 : treeExt Q R) :
    treeExt P R := by
  obtain ⟨hl1, he1, hd1⟩ := h1
  obtain ⟨hl2, he2, hd2⟩ := h2
  refine ⟨Nat.le_trans hl1 hl2, ?_, ?_⟩
  · intro i hi
    rw [he2 i (by omega), he1 i hi]
  · intro i hi
    obtain ⟨hp1, hx1⟩ := hd1 i hi
    obtain ⟨hp2, hx2⟩ := hd2 i (by omega)
    exact ⟨by rw [hp2, hp1], dataExt_trans hx1 hx2⟩

theorem treeExt_append (P : List PNode) (x : PNode) : treeExt P (P ++ [x]) := by
  refine ⟨by simp, ?_, ?_⟩
  · intro i hi
    exact nodeAt_append_lt P [x] i (by omega)
  · intro i hi
    rw [nodeAt_append_lt P [x] i hi]
    exact ⟨rfl, dataExt_refl _⟩

theorem treeExt_extendLast (P : List PNode) (s : String) (n : PNode)
    (h : P.getLast? = some n) (ht : isTextData n.data = true) :
    treeExt P (extendLastText P s) := by
  obtain ⟨t, htt⟩ : ∃ t, n.data = .text t := by
    cases hx : n.data <;> simp [hx, isTextData] at ht ⊢
  refine ⟨by rw [extendLastText_length], ?_, ?_⟩
  · intro i hi
    exact extendLastText_nodeAt_lt P s i hi
  · intro i hi
    rcases Nat.lt_or_ge i (P.length - 1) with hlt | hge
    · rw [extendLastText_nodeAt_lt P s i (by omega)]
      exact ⟨rfl, dataExt_refl _⟩
    · have hieq : i = P.length - 1 := by omega
      subst hieq
      rw [extendLastText_nodeAt_last P n t s h htt, nodeAt_getLast P n h]
      exact ⟨rfl, Or.inr ⟨t, s, htt, rfl⟩⟩

theorem applyEvents_treeExt (evs : List ParseEvent) :
    ∀ P, wfEvents P evs = true → treeExt P (applyEvents P evs) := by
  induction evs with
  | nil => intro P _; exact treeExt_refl P
  | cons e evs ih =>
    intro P hwf
    cases e with
    | node p d =>
      rw [wfEvents] at hwf
      simp only [Bool.and_eq_true] at hwf
      exact treeExt_trans (treeExt_append P ⟨p, d⟩) (ih (P ++ [⟨p, d⟩]) hwf.2)
    | moreText s =>
      rw [wfEvents] at hwf
      simp only [Bool.and_eq_true] at hwf
      obtain ⟨hlast, hrest⟩ := hwf
      cases hg : P.getLast? with
      | none => rw [hg] at hlast; cases hlast
      | some n =>
        rw [hg] at hlast
        exact treeExt_trans (treeExt_extendLast P s n hg hlast)
          (ih (extendLastText P s) hrest)

theorem prevPendingAt_ext {P Q : List PNode} (hT : treeExt P Q) (k : Nat)
    (hk : k ≤ P.length) : prevPendingAt Q k = prevPendingAt P k := by
  cases k with
  | zero => rfl
  | succ i =>
    have hd := (hT.2.2 i (by omega)).2
    simp [prevPendingAt, dataExt_isText hd]

theorem parentHostIdx_ext {P Q : List PNode} (hT : treeExt P Q) (i : Nat)
    (hi : i < P.length) : parentHostIdx Q i = parentHostIdx P i := by
  have hp := (hT.2.2 i hi).1
  unfold parentHostIdx
  rw [hp]
  cases hx : (nodeAt P i).parent with
  | none => rfl
  | some j =>
    by_cases hj : j < i
    · have hdj := (hT.2.2 j (by omega)).2
      simp [hj, dataExt_isInlineHost hdj]
    · simp [hj]

theorem prevHostAt_ext {P Q : List PNode} (hT : treeExt P Q) (k : Nat)
    (hk : k ≤ P.length) : prevHostAt Q k = prevHostAt P k := by
  cases k with
  | zero => rfl
  | succ i => exact parentHostIdx_ext hT i (by omega)

theorem findBlockFrom_intro_some (env : List String) (P : List PNode) (b : Nat) :
    ∀ k, k ≤ b → b < P.length → isBlockingData env (nodeAt P b).data = true →
      (∀ i, k ≤ i → i < b → isBlockingData env (nodeAt P i).data = false) →
      findBlockFrom env P k = some b := by
  intro k
  induction' hn : b - k with m ih generalizing k
  · intro hkb hb hbl hmin
    have hke : k = b := by omega
    subst hke
    exact findBlockFrom_hit env P k hb hbl
  · intro hkb hb hbl hmin
    have hkb' : k < b := by omega
    rw [findBlockFrom_skip env P k (by omega) (hmin k (Nat.le_refl _) hkb')]
    exact ih (k + 1) (by omega) (by omega) hb hbl (fun i h1 h2 => hmin i (by omega) h2)

theorem findBlockFrom_intro_none (env : List String) (P : List PNode) :
    ∀ k, (∀ i, k ≤ i → i < P.length → isBlockingData env (nodeAt P i).data = false) →
      findBlockFrom env P k = none := by
  intro k
  induction' hn : P.length - k with m ih generalizing k
  · intro h
    exact findBlockFrom_stop env P k (by omega)
  · intro h
    rw [findBlockFrom_skip env P k (by omega) (h k (Nat.le_refl _) (by omega))]
    exact ih (k + 1) (by omega) (fun i h1 h2 => h i (by omega) h2)

theorem findBlockFrom_prefix (env : List String) (P : List PNode) (k' : Nat) :
    ∀ k, k ≤ k' →
      (∀ i, k ≤ i → i < k' → isBlockingData env (nodeAt P i).data = false) →
      findBlockFrom env P k = findBlockFrom env P k' := by
  intro k
  induction' hn : k' - k with m ih generalizing k
  · intro h1 h2
    have hke : k = k' := by omega
    rw [hke]
  · intro h1 h2
    by_cases hk : k < P.length
    · rw [findBlockFrom_skip env P k hk (h2 k (Nat.le_refl _) (by omega))]
      exact ih (k + 1) (by omega) (by omega) (fun i ha hb => h2 i (by omega) hb)
    · rw [findBlockFrom_stop env P k hk, findBlockFrom_stop env P k' (by omega)]

theorem filterMap_congr' {α β : Type} (l : List α) (f g : α → Option β)
    (h : ∀ a ∈ l, f a = g a) : l.filterMap f = l.filterMap g := by
  induction l with
  | nil => rfl
  | cons a l ih =>
    simp [List.filterMap_cons, h a (by simp), ih (fun x hx => h x (by simp [hx]))]

theorem parentHostIdx_congr {P Q : List PNode} (i : Nat)
    (hp : (nodeAt Q i).parent = (nodeAt P i).parent)
    (hbelow : ∀ x, x < i → nodeAt Q x = nodeAt P x) :
    parentHostIdx Q i = parentHostIdx P i := by
  unfold parentHostIdx
  rw [hp]
  cases hx : (nodeAt P i).parent with
  | none => rfl
  | some j =>
    dsimp only
    by_cases hj : j < i
    · rw [hbelow j hj]
    · simp [hj]

theorem prevPendingAt_congr {P Q : List PNode} (k : Nat)
    (hbelow : ∀ x, x < k → nodeAt Q x = nodeAt P x) :
    prevPendingAt Q k = prevPendingAt P k := by
  cases k with
  | zero => rfl
  | succ i => simp [prevPendingAt, hbelow i (by omega)]

theorem prevHostAt_congr {P Q : List PNode} (k : Nat)
    (hbelow : ∀ x, x < k → nodeAt Q x = nodeAt P x) :
    prevHostAt Q k = prevHostAt P k := by
  cases k with
  | zero => rfl
  | succ i =>
    exact parentHostIdx_congr i (by rw [hbelow i (by omega)])
      (fun x hx => hbelow x (by omega))

theorem parentHostIdx_lt {P : List PNode} {i h : Nat}
    (hx : parentHostIdx P i = some h) : h < i := by
  unfold parentHostIdx at hx
  split at hx
  · cases hx
  · next j heq =>
    split at hx
    · next hcond =>
      cases hx
      simp only [Bool.and_eq_true, decide_eq_true_eq] at hcond
      exact hcond.1
    · cases hx

theorem flushEntries_congr {P Q : List PNode} (p host : Option Nat)
    (h : ∀ pt, p = some pt → nodeAt Q pt = nodeAt P pt) :
    flushEntries Q p host = flushEntries P p host := by
  unfold flushEntries
  cases p with
  | none => rfl
  | some pt =>
    cases host with
    | none => rfl
    | some hh =>
      dsimp only
      rw [h pt rfl]

theorem hostEvals_congr {P Q : List PNode} (host : Option Nat)
    (h : ∀ hh, host = some hh → nodeAt Q hh = nodeAt P hh) :
    hostEvals Q host = hostEvals P host := by
  unfold hostEvals
  cases host with
  | none => rfl
  | some hh =>
    dsimp only
    rw [h hh rfl]

theorem entriesAt_congr {P Q : List PNode} (i : Nat)
    (hle : ∀ x, x ≤ i → nodeAt Q x = nodeAt P x) :
    entriesAt Q i = entriesAt P i := by
  have hbelow : ∀ x, x < i → nodeAt Q x = nodeAt P x := fun x hx => hle x (by omega)
  unfold entriesAt
  rw [parentHostIdx_congr i (by rw [hle i (Nat.le_refl _)]) hbelow]
  cases hph : parentHostIdx P i with
  | some hh => rfl
  | none =>
    rw [prevPendingAt_congr i hbelow, prevHostAt_congr i hbelow,
      flushEntries_congr (prevPendingAt P i) (prevHostAt P i)
        (fun pt hpt => by
          cases i with
          | zero => simp [prevPendingAt] at hpt
          | succ m =>
            have : pt = m := by
              simp only [prevPendingAt] at hpt
              split at hpt
              · exact (Option.some.injEq _ _ ▸ hpt).symm
              · cases hpt
            exact hbelow pt (by omega))]
    unfold liveParentOf
    rw [hle i (Nat.le_refl _)]

theorem evalsAt_congr {P Q : List PNode} (i : Nat)
    (hp : (nodeAt Q i).parent = (nodeAt P i).parent)
    (hdx : dataExt (nodeAt P i).data (nodeAt Q i).data)
    (hbelow : ∀ x, x < i → nodeAt Q x = nodeAt P x) :
    evalsAt Q i = evalsAt P i := by
  unfold evalsAt
  rw [parentHostIdx_congr i hp hbelow]
  cases hph : parentHostIdx P i with
  | some hh => rfl
  | none =>
    rw [prevHostAt_congr i hbelow,
      hostEvals_congr (prevHostAt P i)
        (fun hh hhh => by
          cases i with
          | zero => simp [prevHostAt] at hhh
          | succ m =>
            simp only [prevHostAt] at hhh
            exact hbelow hh (by have := parentHostIdx_lt hhh; omega)),
      dataExt_isScript hdx, dataExt_isInlineHost hdx]

theorem hintEntriesIn_congr (env : List String) {P Q : List PNode} (a b : Nat)
    (h : ∀ x, a ≤ x → x < b →
      getPreloadLinkData env (nodeAt Q x).data = getPreloadLinkData env (nodeAt P x).data) :
    hintEntriesIn env Q a b = hintEntriesIn env P a b := by
  unfold hintEntriesIn
  exact filterMap_congr' _ _ _ (fun x hx => by
    have hx' := List.mem_range'_1.mp hx
    rw [h x hx'.1 (by omega)])

theorem mirrorRange_congr {P Q : List PNode} (a b : Nat)
    (h : ∀ i, a ≤ i → i < b → entriesAt Q i = entriesAt P i) :
    mirrorRange Q a b = mirrorRange P a b := by
  unfold mirrorRange
  exact List.flatMap_congr (fun x hx => by
    have hx' := List.mem_range'_1.mp hx
    exact h x hx'.1 (by omega))

theorem evalsRange_congr {P Q : List PNode} (a b : Nat)
    (h : ∀ i, a ≤ i → i < b → evalsAt Q i = evalsAt P i) :
    evalsRange Q a b = evalsRange P a b := by
  unfold evalsRange
  exact List.flatMap_congr (fun x hx => by
    have hx' := List.mem_range'_1.mp hx
    exact h x hx'.1 (by omega))

theorem PNode_eq_of {a b : PNode} (hp : a.parent = b.parent) (hd : a.data = b.data) :
    a = b := by
  cases a; cases b
  cases hp; cases hd
  rfl

theorem dataExt_eq_of_not_text {d d' : NodeData} (h : dataExt d d')
    (ht : isTextData d = false) : d' = d := by
  rcases h with rfl | ⟨t, r, rfl, rfl⟩
  · rfl
  · simp [isTextData] at ht

theorem blocking_not_text (env : List String) (d : NodeData)
    (h : isBlockingData env d = true) : isTextData d = false := by
  cases d <;> simp [isBlockingData, isTextData] at h ⊢

theorem treeExt_nodeAt_eq {P Q : List PNode} (hT : treeExt P Q) (x : Nat)
    (hx : x + 1 < P.length ∨ (x < P.length ∧ isTextData (nodeAt P x).data = false)) :
    nodeAt Q x = nodeAt P x := by
  rcases hx with hx | ⟨hx, ht⟩
  · exact hT.2.1 x hx
  · obtain ⟨hp, hd⟩ := hT.2.2 x hx
    exact PNode_eq_of hp (dataExt_eq_of_not_text hd ht)

theorem wfNodeAt_congr {P Q : List PNode} (i : Nat)
    (hle : ∀ x, x ≤ i → nodeAt Q x = nodeAt P x) :
    wfNodeAt Q i = wfNodeAt P i := by
  unfold wfNodeAt
  rw [hle i (Nat.le_refl _)]
  cases hx : (nodeAt P i).parent with
  | none => rfl
  | some j =>
    dsimp only
    by_cases hj : j < i
    · rw [hle j (by omega)]
    · simp [hj]

theorem wfParse_append (P : List PNode) (x : PNode) (hP : wfParse P = true)
    (hv : validNewNode P x.parent x.data = true) : wfParse (P ++ [x]) = true := by
  simp only [wfParse, List.all_eq_true] at hP ⊢
  intro i hi
  rw [List.mem_range] at hi
  simp only [List.length_append, List.length_singleton] at hi
  rcases Nat.lt_or_ge i P.length with hlt | hge
  · rw [wfNodeAt_congr i (fun y hy => nodeAt_append_lt P [x] y (by omega))]
    exact hP i (List.mem_range.mpr hlt)
  · have hieq : i = P.length := by omega
    subst hieq
    unfold wfNodeAt
    rw [nodeAt_append_self]
    unfold validNewNode at hv
    cases hxp : x.parent with
    | none => rfl
    | some j =>
      rw [hxp] at hv
      simp only [Bool.and_eq_true, decide_eq_true_eq] at hv
      obtain ⟨⟨hj, he⟩, hio⟩ := hv
      dsimp only
      rw [nodeAt_append_lt P [x] j hj]
      simp only [Bool.and_eq_true, decide_eq_true_eq]
      exact ⟨⟨hj, he⟩, hio⟩

theorem wfParse_extendLast (P : List PNode) (s : String) (n : PNode)
    (h : P.getLast? = some n) (ht : isTextData n.data = true)
    (hP : wfParse P = true) : wfParse (extendLastText P s) = true := by
  obtain ⟨t, htt⟩ : ∃ t, n.data = .text t := by
    cases hx : n.data <;> simp [hx, isTextData] at ht ⊢
  have hpos := length_pos_of_getLast P n h
  simp only [wfParse, List.all_eq_true] at hP ⊢
  intro i hi
  rw [List.mem_range] at hi
  rw [extendLastText_length] at hi
  rcases Nat.lt_or_ge i (P.length - 1) with hlt | hge
  · rw [wfNodeAt_congr i (fun y hy => extendLastText_nodeAt_lt P s y (by omega))]
    exact hP i (List.mem_range.mpr (by omega))
  · have hieq : i = P.length - 1 := by omega
    subst hieq
    have hold := hP (P.length - 1) (List.mem_range.mpr (by omega))
    unfold wfNodeAt at hold ⊢
    rw [extendLastText_nodeAt_last P n t s h htt]
    rw [nodeAt_getLast P n h] at hold
    cases hxp : n.parent with
    | none => rfl
    | some j =>
      rw [hxp] at hold
      simp only [Bool.and_eq_true, decide_eq_true_eq] at hold ⊢
      obtain ⟨⟨hj, he⟩, _⟩ := hold
      rw [extendLastText_nodeAt_lt P s j (by omega)]
      refine ⟨⟨hj, he⟩, ?_⟩
      simp [isTextData]

theorem wfParse_applyEvents (evs : List ParseEvent) :
    ∀ P, wfParse P = true → wfEvents P evs = true →
      wfParse (applyEvents P evs) = true := by
  induction evs with
  | nil => intro P hP _; exact hP
  | cons e evs ih =>
    intro P hP hwf
    cases e with
    | node p d =>
      rw [wfEvents] at hwf
      simp only [Bool.and_eq_true] at hwf
      exact ih (P ++ [⟨p, d⟩]) (wfParse_append P ⟨p, d⟩ hP hwf.1) hwf.2
    | moreText s =>
      rw [wfEvents] at hwf
      simp only [Bool.and_eq_true] at hwf
      obtain ⟨hlast, hrest⟩ := hwf
      cases hg : P.getLast? with
      | none => rw [hg] at hlast; cases hlast
      | some n =>
        rw [hg] at hlast
        exact ih (extendLastText P s) (wfParse_extendLast P s n hg hlast hP) hrest

theorem mirrorState_of_none (env : List String) (P : List PNode)
    (h : findBlockFrom env P 0 = none) :
    mirrorState env P =
      { parsed := P, walkerPos := P.length, scanPos := none
        pendingText := prevPendingAt P P.length, inlineHost := prevHostAt P P.length
        isBlocked := false, blockedHandler := none, closeWaiter := false
        resolved := false, live := mirrorRange P 0 P.length, scanLog := []
        hintLog := [], evals := evalsRange P 0 P.length } := by
  unfold mirrorState stopFrom
  rw [h]
  simp

theorem mirrorState_of_some (env : List String) (P : List PNode) (b : Nat)
    (h : findBlockFrom env P 0 = some b) :
    mirrorState env P =
      { parsed := P, walkerPos := b + 1
        scanPos := if b + 1 < P.length then some P.length else none
        pendingText := prevPendingAt P (b + 1), inlineHost := prevHostAt P (b + 1)
        isBlocked := true, blockedHandler := some b, closeWaiter := false
        resolved := false
        live := mirrorRange P 0 (b + 1) ++ hintEntriesIn env P (b + 1) P.length
        scanLog := List.range' (b + 1) (P.length - (b + 1))
        hintLog := (List.range' (b + 1) (P.length - (b + 1))).filter (hintable env P)
        evals := evalsRange P 0 (b + 1) } := by
  unfold mirrorState stopFrom
  rw [h]
  simp

theorem prevPendingAt_some {P : List PNode} {k pt : Nat}
    (h : prevPendingAt P k = some pt) :
    k = pt + 1 ∧ isTextData (nodeAt P pt).data = true := by
  cases k with
  | zero => cases h
  | succ m =>
    simp only [prevPendingAt] at h
    split at h
    · next ht => cases h; exact ⟨rfl, ht⟩
    · cases h

theorem mem_mirrorRange_id (P : List PNode) (a b : Nat) (en : LEntry)
    (h : en ∈ mirrorRange P a b) :
    (∃ i, a ≤ i ∧ i < b ∧ en.id = .clone i) ∨ (∃ pt, en.id = .moved pt) := by
  unfold mirrorRange at h
  rw [List.mem_flatMap] at h
  obtain ⟨i, hi, hen⟩ := h
  have hi' := List.mem_range'_1.mp hi
  unfold entriesAt at hen
  split at hen
  · cases hen
  · rw [List.mem_append] at hen
    rcases hen with hen | hen
    · unfold flushEntries at hen
      split at hen
      · next pt hh _ _ =>
        simp only [List.mem_singleton] at hen
        subst hen
        exact Or.inr ⟨pt, rfl⟩
      · cases hen
    · simp only [List.mem_singleton] at hen
      subst hen
      exact Or.inl ⟨i, hi'.1, by omega, rfl⟩

theorem map_patch_eq_self (P' : List PNode) (pt : Nat) (L : List LEntry)
    (h : ∀ en ∈ L, en.id ≠ LiveId.clone pt) :
    (L.map fun en =>
      if en.id = LiveId.clone pt then
        { en with content := LData.nodeContent (nodeAt P' pt).data }
      else en) = L := by
  induction L with
  | nil => rfl
  | cons a l ih =>
    simp only [List.map_cons, h a (by simp), if_neg (h a (by simp)), List.cons.injEq]
    exact ⟨rfl, ih (fun en hen => h en (by simp [hen]))⟩

theorem mirror_prefix_congr {P P' : List PNode} (hT : treeExt P P') (m : Nat)
    (hm : m < P.length) : mirrorRange P' 0 m = mirrorRange P 0 m := by
  apply mirrorRange_congr
  intro i _ hi
  exact entriesAt_congr i (fun x hx => hT.2.1 x (by omega))

theorem copy_live_none {P P' : List PNode} (hT : treeExt P P')
    (h : prevPendingAt P P.length = none) :
    mirrorRange P' 0 P.length = mirrorRange P 0 P.length := by
  cases hl : P.length with
  | zero =>
    rw [mirrorRange_empty P 0 0 (by omega), mirrorRange_empty P' 0 0 (by omega)]
  | succ m =>
    apply mirrorRange_congr
    intro i _ hi
    apply entriesAt_congr
    intro x hx
    rcases Nat.lt_or_ge (x + 1) P.length with hx1 | hx1
    · exact hT.2.1 x hx1
    · have hxe : x = m := by omega
      subst hxe
      rw [hl] at h
      simp only [prevPendingAt] at h
      split at h
      · cases h
      · next ht =>
        exact treeExt_nodeAt_eq hT x (Or.inr ⟨by omega, by simpa using ht⟩)

theorem copy_live_host {P P' : List PNode} (hT : treeExt P P') {pt hh : Nat}
    (h : prevPendingAt P P.length = some pt)
    (hhost : prevHostAt P P.length = some hh) :
    mirrorRange P' 0 P.length = mirrorRange P 0 P.length := by
  obtain ⟨hlen, htext⟩ := prevPendingAt_some h
  rw [hlen, mirrorRange_split P' 0 pt (pt + 1) (by omega) (by omega),
    mirrorRange_split P 0 pt (pt + 1) (by omega) (by omega),
    mirrorRange_single, mirrorRange_single]
  have hpref : mirrorRange P' 0 pt = mirrorRange P 0 pt :=
    mirror_prefix_congr hT pt (by omega)
  rw [hpref]
  have hph : parentHostIdx P pt = some hh := by
    rw [hlen] at hhost
    simpa [prevHostAt] using hhost
  have hph' : parentHostIdx P' pt = parentHostIdx P pt :=
    parentHostIdx_congr pt (hT.2.2 pt (by omega)).1 (fun x hx => hT.2.1 x (by omega))
  unfold entriesAt
  rw [hph', hph]

theorem copy_live_patch {P P' : List PNode} (hT : treeExt P P') {pt : Nat}
    (h : prevPendingAt P P.length = some pt)
    (hhost : prevHostAt P P.length = none) :
    ((mirrorRange P 0 P.length).map fun en =>
      if en.id = LiveId.clone pt then
        { en with content := LData.nodeContent (nodeAt P' pt).data }
      else en) = mirrorRange P' 0 P.length := by
  obtain ⟨hlen, htext⟩ := prevPendingAt_some h
  rw [hlen, mirrorRange_split P 0 pt (pt + 1) (by omega) (by omega),
    mirrorRange_split P' 0 pt (pt + 1) (by omega) (by omega),
    mirrorRange_single, mirrorRange_single, List.map_append]
  have hpref : mirrorRange P' 0 pt = mirrorRange P 0 pt :=
    mirror_prefix_congr hT pt (by omega)
  rw [map_patch_eq_self P' pt (mirrorRange P 0 pt) (fun en hen => by
    rcases mem_mirrorRange_id P 0 pt en hen with ⟨i, _, hi, hid⟩ | ⟨q, hid⟩
    · rw [hid]; intro hc; cases hc; omega
    · rw [hid]; intro hc; cases hc)]
  rw [hpref]
  have hph : parentHostIdx P pt = none := by
    rw [hlen] at hhost
    simpa [prevHostAt] using hhost
  have hph' : parentHostIdx P' pt = parentHostIdx P pt :=
    parentHostIdx_congr pt (hT.2.2 pt (by omega)).1 (fun x hx => hT.2.1 x (by omega))
  have hbelow : ∀ x, x < pt → nodeAt P' x = nodeAt P x := fun x hx =>
    hT.2.1 x (by omega)
  unfold entriesAt
  rw [hph', hph]
  dsimp only
  rw [prevPendingAt_congr pt hbelow, prevHostAt_congr pt hbelow,
    flushEntries_congr (P := P) (Q := P') (prevPendingAt P pt) (prevHostAt P pt)
      (fun q hq => by
        obtain ⟨hm2, _⟩ := prevPendingAt_some hq
        exact hbelow q (by omega))]
  unfold liveParentOf
  rw [(hT.2.2 pt (by omega)).1]
  rw [List.map_append]
  rw [map_patch_eq_self P' pt (flushEntries P (prevPendingAt P pt) (prevHostAt P pt))
    (fun en hen => by
      unfold flushEntries at hen
      split at hen
      · next q hh2 _ _ =>
        simp only [List.mem_singleton] at hen
        subst hen
        intro hc
        cases hc
      · cases hen)]
  simp

/-- A `write` call on a canonical session state produces the canonical
session state of the grown parse tree: feeding chunks in any partition
yields the same session state as feeding their concatenation. -/
theorem stepWrite_mirrorState (env : List String) (P : List PNode) (evs : List ParseEvent)
    (hP : wfParse P = true) (hevs : wfEvents P evs = true) :
    stepWrite env (mirrorState env P) evs = mirrorState env (applyEvents P evs) := by
  have hT : treeExt P (applyEvents P evs) := applyEvents_treeExt evs P hevs
  have hPwf' : wfParse (applyEvents P evs) = true := wfParse_applyEvents evs P hP hevs
  have hlen : P.length ≤ (applyEvents P evs).length := hT.1
  cases hfb : findBlockFrom env P 0 with
  | none =>
    have hnb : ∀ i, i < P.length →
        isBlockingData env (nodeAt (applyEvents P evs) i).data = false := by
      intro i hi
      rw [dataExt_isBlocking env (hT.2.2 i hi).2]
      exact findBlockFrom_none env P 0 hfb i (by omega) hi
    have hpend : prevPendingAt (applyEvents P evs) P.length = prevPendingAt P P.length :=
      prevPendingAt_ext hT P.length (Nat.le_refl _)
    have hhost : prevHostAt (applyEvents P evs) P.length = prevHostAt P P.length :=
      prevHostAt_ext hT P.length (Nat.le_refl _)
    have hev : evalsRange (applyEvents P evs) 0 P.length = evalsRange P 0 P.length := by
      apply evalsRange_congr
      intro i _ hi
      exact evalsAt_congr i (hT.2.2 i hi).1 (hT.2.2 i hi).2
        (fun x hx => hT.2.1 x (by omega))
    have hcopy :
        copyPending
          { parsed := applyEvents P evs, walkerPos := P.length, scanPos := none
            pendingText := prevPendingAt P P.length
            inlineHost := prevHostAt P P.length
            isBlocked := false, blockedHandler := none, closeWaiter := false
            resolved := false, live := mirrorRange P 0 P.length, scanLog := []
            hintLog := [], evals := evalsRange P 0 P.length } =
          readyState (applyEvents P evs) P.length none none false false
            (mirrorRange (applyEvents P evs) 0 P.length) [] []
            (evalsRange (applyEvents P evs) 0 P.length) := by
      unfold copyPending readyState
      cases hpp : prevPendingAt P P.length with
      | none =>
        dsimp only
        rw [hpend, hhost, hev, copy_live_none hT hpp, hpp]
      | some pt =>
        dsimp only
        cases hph : prevHostAt P P.length with
        | some hh =>
          rw [if_neg (by simp)]
          rw [hpend, hhost, hev, hpp, hph, copy_live_host hT hpp hph]
        | none =>
          rw [if_pos (by simp)]
          rw [hpend, hhost, hev, hpp, hph, copy_live_patch hT hpp hph]
    rw [mirrorState_of_none env P hfb]
    unfold stepWrite
    dsimp only
    rw [hcopy]
    unfold walk
    rw [if_neg (by simp [readyState])]
    rw [walkAux_ready env (applyEvents P evs) hPwf' P.length hlen none none false false
      (mirrorRange (applyEvents P evs) 0 P.length) [] []
      (evalsRange (applyEvents P evs) 0 P.length)]
    have hpre : findBlockFrom env (applyEvents P evs) 0 =
        findBlockFrom env (applyEvents P evs) P.length :=
      findBlockFrom_prefix env (applyEvents P evs) P.length 0 (by omega)
        (fun i h1 h2 => hnb i h2)
    cases hfb' : findBlockFrom env (applyEvents P evs) P.length with
    | none =>
      rw [mirrorState_of_none env (applyEvents P evs) (by rw [hpre, hfb'])]
      simp only [Bool.or_self]
      rw [← mirrorRange_split (applyEvents P evs) 0 P.length
        (applyEvents P evs).length (by omega) (by omega),
        ← evalsRange_split (applyEvents P evs) 0 P.length
        (applyEvents P evs).length (by omega) (by omega)]
    | some b =>
      have hb := findBlockFrom_some env (applyEvents P evs) P.length b hfb'
      rw [mirrorState_of_some env (applyEvents P evs) b (by rw [hpre, hfb'])]
      simp only [Option.getD_none, List.nil_append]
      rw [← mirrorRange_split (applyEvents P evs) 0 P.length (b + 1) (by omega) (by omega),
        ← evalsRange_split (applyEvents P evs) 0 P.length (b + 1) (by omega) (by omega)]
  | some b =>
    have hbsome := findBlockFrom_some env P 0 b hfb
    have hbnt : isTextData (nodeAt P b).data = false :=
      blocking_not_text env _ hbsome.2.2
    have hpp : prevPendingAt P (b + 1) = none := by
      simp [prevPendingAt, hbnt]
    have hfb' : findBlockFrom env (applyEvents P evs) 0 = some b := by
      apply findBlockFrom_intro_some env (applyEvents P evs) b 0 (by omega) (by omega)
      · rw [dataExt_isBlocking env (hT.2.2 b hbsome.2.1).2]
        exact hbsome.2.2
      · intro i h0 hib
        rw [dataExt_isBlocking env (hT.2.2 i (by omega)).2]
        exact findBlockFrom_min env P 0 b hfb i (by omega) hib
    have hle_b : ∀ x, x ≤ b → nodeAt (applyEvents P evs) x = nodeAt P x := by
      intro x hx
      rcases Nat.lt_or_ge (x + 1) P.length with h1 | h1
      · exact hT.2.1 x h1
      · have hxe : x = b := by omega
        subst hxe
        exact treeExt_nodeAt_eq hT x (Or.inr ⟨by omega, hbnt⟩)
    have hmirr : mirrorRange (applyEvents P evs) 0 (b + 1) = mirrorRange P 0 (b + 1) := by
      apply mirrorRange_congr
      intro i _ hi
      exact entriesAt_congr i (fun x hx => hle_b x (by omega))
    have hhint1 : hintEntriesIn env (applyEvents P evs) (b + 1) P.length =
        hintEntriesIn env P (b + 1) P.length := by
      apply hintEntriesIn_congr
      intro x _ hx
      exact dataExt_preload env (hT.2.2 x (by omega)).2
    have hpend : prevPendingAt (applyEvents P evs) (b + 1) = prevPendingAt P (b + 1) :=
      prevPendingAt_ext hT (b + 1) (by omega)
    have hhost : prevHostAt (applyEvents P evs) (b + 1) = prevHostAt P (b + 1) :=
      prevHostAt_ext hT (b + 1) (by omega)
    have hev : evalsRange (applyEvents P evs) 0 (b + 1) = evalsRange P 0 (b + 1) := by
      apply evalsRange_congr
      intro i _ hi
      exact evalsAt_congr i (hT.2.2 i (by omega)).1 (hT.2.2 i (by omega)).2
        (fun x hx => hT.2.1 x (by omega))
    have hfilter : (List.range' (b + 1) (P.length - (b + 1))).filter (hintable env P) =
        (List.range' (b + 1) (P.length - (b + 1))).filter
          (hintable env (applyEvents P evs)) := by
      apply List.filter_congr
      intro x hx
      have hx' := List.mem_range'_1.mp hx
      unfold hintable
      rw [dataExt_preload env (hT.2.2 x (by omega)).2]
    rw [mirrorState_of_some env P b hfb]
    unfold stepWrite
    dsimp only
    unfold copyPending
    rw [hpp]
    dsimp only
    unfold walk
    rw [if_pos rfl]
    unfold scanAhead
    dsimp only
    have hstart : (Option.getD (if b + 1 < P.length then some P.length else none) (b + 1))
        = P.length := by
      split
      · simp
      · simp; omega
    rw [hstart]
    rw [mirrorState_of_some env (applyEvents P evs) b hfb']
    have hsp : (if P.length < (applyEvents P evs).length
          then some (applyEvents P evs).length
          else if b + 1 < P.length then some P.length else none) =
        (if b + 1 < (applyEvents P evs).length
          then some (applyEvents P evs).length else none) := by
      by_cases h1 : P.length < (applyEvents P evs).length
      · rw [if_pos h1, if_pos (by omega)]
      · have hle2 : (applyEvents P evs).length = P.length := by omega
        rw [if_neg h1, hle2]
    rw [hsp]
    have hlive : mirrorRange P 0 (b + 1) ++ hintEntriesIn env P (b + 1) P.length ++
        hintEntriesIn env (applyEvents P evs) P.length (applyEvents P evs).length =
        mirrorRange (applyEvents P evs) 0 (b + 1) ++
          hintEntriesIn env (applyEvents P evs) (b + 1) (applyEvents P evs).length := by
      rw [hmirr, ← hhint1, List.append_assoc,
        ← hintEntriesIn_split env (applyEvents P evs) (b + 1) P.length
          (applyEvents P evs).length (by omega) (by omega)]
    rw [hlive]
    have hslog : List.range' (b + 1) (P.length - (b + 1)) ++
        List.range' P.length ((applyEvents P evs).length - P.length) =
        List.range' (b + 1) ((applyEvents P evs).length - (b + 1)) :=
      (range'_split (b + 1) P.length (applyEvents P evs).length (by omega) (by omega)).symm
    rw [hslog]
    have hhlog : (List.range' (b + 1) (P.length - (b + 1))).filter (hintable env P) ++
        (List.range' P.length ((applyEvents P evs).length - P.length)).filter
          (hintable env (applyEvents P evs)) =
        (List.range' (b + 1) ((applyEvents P evs).length - (b + 1))).filter
          (hintable env (applyEvents P evs)) := by
      rw [hfilter, ← List.filter_append, hslog]
    rw [hintable_eta env (applyEvents P evs), hhlog, hpend, hpp, hhost, hev]

theorem applyEvents_append (P : List PNode) (e1 e2 : List ParseEvent) :
    applyEvents P (e1 ++ e2) = applyEvents (applyEvents P e1) e2 := by
  unfold applyEvents
  exact List.foldl_append _ _ e1 e2

theorem wfEvents_cons_node (P : List PNode) (p : Option Nat) (d : NodeData)
    (evs : List ParseEvent) :
    wfEvents P (.node p d :: evs) = (validNewNode P p d && wfEvents (P ++ [⟨p, d⟩]) evs) :=
  rfl

theorem wfEvents_cons_text (P : List PNode) (s : String) (evs : List ParseEvent) :
    wfEvents P (.moreText s :: evs) =
      ((match P.getLast? with
        | some n => isTextData n.data
        | none => false) && wfEvents (extendLastText P s) evs) := rfl

theorem applyEvents_cons (P : List PNode) (e : ParseEvent) (evs : List ParseEvent) :
    applyEvents P (e :: evs) = applyEvents (applyParseEvent P e) evs := rfl

theorem wfEvents_append (e1 : List ParseEvent) :
    ∀ (P : List PNode) (e2 : List ParseEvent),
      wfEvents P (e1 ++ e2) = (wfEvents P e1 && wfEvents (applyEvents P e1) e2) := by
  induction e1 with
  | nil =>
    intro P e2
    simp [wfEvents, applyEvents]
  | cons e es ih =>
    intro P e2
    cases e with
    | node p d =>
      rw [List.cons_append, wfEvents_cons_node, wfEvents_cons_node,
        applyEvents_cons, ih, Bool.and_assoc]
      rfl
    | moreText s =>
      rw [List.cons_append, wfEvents_cons_text, wfEvents_cons_text,
        applyEvents_cons, ih, Bool.and_assoc]
      rfl

theorem foldl_writes (env : List String) (css : List (List ParseEvent)) :
    ∀ P, wfParse P = true → wfEvents P css.flatten = true →
      css.foldl (stepWrite env) (mirrorState env P) =
        mirrorState env (applyEvents P css.flatten) := by
  induction css with
  | nil =>
    intro P _ _
    simp [applyEvents]
  | cons c css ih =>
    intro P hP hwf
    rw [List.flatten_cons, wfEvents_append] at hwf
    simp only [Bool.and_eq_true] at hwf
    obtain ⟨hc, hrest⟩ := hwf
    rw [List.foldl_cons, stepWrite_mirrorState env P c hP hc,
      ih (applyEvents P c) (wfParse_applyEvents c P hP hc) hrest,
      List.flatten_cons, applyEvents_append]

theorem runWrites_eq (env : List String) (css : List (List ParseEvent))
    (hwf : wfEvents [] css.flatten = true) :
    runWrites env css = mirrorState env (applyEvents [] css.flatten) := by
  unfold runWrites
  rw [← mirrorState_nil env]
  exact foldl_writes env css [] (by rfl) hwf

/-- C1: chunk-boundary independence.  Writing the parse stream in any
partition of chunks, then closing and letting every outstanding blocking
resource resolve, leaves the session — in particular the live target tree —
in exactly the state produced by writing the whole stream in one single
`write` call. -/
theorem chunk_boundary_independence (env : List String) (css : List (List ParseEvent))
    (hwf : wfEvents [] css.flatten = true) (fuel : Nat) :
    drainRun env fuel (stepClose (runWrites env css)) =
      drainRun env fuel (stepClose (runWrites env [css.flatten])) := by
  rw [runWrites_eq env css hwf, runWrites_eq env [css.flatten] (by simpa using hwf)]
  simp

theorem blocking_parentHost_none (env : List String) (P : List PNode) (b : Nat)
    (hP : wfParse P = true) (hb : b < P.length)
    (hbl : isBlockingData env (nodeAt P b).data = true) :
    parentHostIdx P b = none := by
  have hwf : wfNodeAt P b = true := by
    simp only [wfParse, List.all_eq_true] at hP
    exact hP b (List.mem_range.mpr hb)
  have hnt : isTextData (nodeAt P b).data = false := blocking_not_text env _ hbl
  unfold parentHostIdx
  unfold wfNodeAt at hwf
  cases hp : (nodeAt P b).parent with
  | none => rfl
  | some j =>
    rw [hp] at hwf
    simp only [Bool.and_eq_true, decide_eq_true_eq, Bool.or_eq_true,
      Bool.not_eq_true'] at hwf
    rcases hwf.2 with hio | hio
    · simp [hio]
    · rw [hnt] at hio
      cases hio

theorem clone_mem_mirrorRange (P : List PNode) (a c b : Nat) (hab : a ≤ b)
    (hbc : b < c) (hph : parentHostIdx P b = none) :
    (⟨.clone b, liveParentOf P b, .nodeContent (nodeAt P b).data⟩ : LEntry) ∈
      mirrorRange P a c := by
  unfold mirrorRange
  rw [List.mem_flatMap]
  refine ⟨b, List.mem_range'_1.mpr ⟨hab, by omega⟩, ?_⟩
  unfold entriesAt
  rw [hph]
  simp

theorem drainRun_not_blocked (env : List String) (fuel : Nat) (st : SState)
    (h : st.isBlocked = false) : drainRun env fuel st = st := by
  cases fuel with
  | zero => rfl
  | succ f => simp [drainRun, h]

/-- The session state while draining after `close()`: the first block was at
`b1` (fixing where the preload hints sit in the live order and how far the
lookahead scanned), the walk is currently paused at blocking node `b`. -/
def drainMid (env : List String) (P : List PNode) (b1 b : Nat) : SState :=
  { parsed := P, walkerPos := b + 1
    scanPos := if b1 + 1 < P.length then some P.length else none
    pendingText := prevPendingAt P (b + 1), inlineHost := prevHostAt P (b + 1)
    isBlocked := true, blockedHandler := some b, closeWaiter := true, resolved := false
    live := mirrorRange P 0 (b1 + 1) ++ hintEntriesIn env P (b1 + 1) P.length ++
      mirrorRange P (b1 + 1) (b + 1)
    scanLog := List.range' (b1 + 1) (P.length - (b1 + 1))
    hintLog := (List.range' (b1 + 1) (P.length - (b1 + 1))).filter (hintable env P)
    evals := evalsRange P 0 (b + 1) }

/-- The fully drained session after `close()` on a run whose first blocking
node was `b1`: every parse node mirrored, the close promise resolved. -/
def drainedState (env : List String) (P : List PNode) (b1 : Nat) : SState :=
  { parsed := P, walkerPos := P.length
    scanPos := if b1 + 1 < P.length then some P.length else none
    pendingText := prevPendingAt P P.length, inlineHost := prevHostAt P P.length
    isBlocked := false, blockedHandler := none, closeWaiter := true, resolved := true
    live := mirrorRange P 0 (b1 + 1) ++ hintEntriesIn env P (b1 + 1) P.length ++
      mirrorRange P (b1 + 1) P.length
    scanLog := List.range' (b1 + 1) (P.length - (b1 + 1))
    hintLog := (List.range' (b1 + 1) (P.length - (b1 + 1))).filter (hintable env P)
    evals := evalsRange P 0 P.length }

/-- `close()` while blocked only registers the resolver: the pending text is
necessarily empty (the last processed node was the blocking element) and the
inline host is empty (a blocking element never sits inside an inline host in
a well-formed parse tree). -/
theorem stepClose_blocked (env : List String) (P : List PNode) (b : Nat)
    (hP : wfParse P = true) (hfb : findBlockFrom env P 0 = some b) :
    stepClose (mirrorState env P) = drainMid env P b b := by
  have hbs := findBlockFrom_some env P 0 b hfb
  have hnt : isTextData (nodeAt P b).data = false := blocking_not_text env _ hbs.2.2
  have hpp : prevPendingAt P (b + 1) = none := by simp [prevPendingAt, hnt]
  have hph : prevHostAt P (b + 1) = none := by
    simp only [prevHostAt]
    exact blocking_parentHost_none env P b hP hbs.2.1 hbs.2.2
  rw [mirrorState_of_some env P b hfb]
  unfold stepClose
  dsimp only
  rw [hpp, hph]
  unfold drainMid
  simp [flushEntries, hostEvals, hpp, hph,
    mirrorRange_empty P (b + 1) (b + 1) (Nat.le_refl _)]

theorem hintEntriesIn_nil (env : List String) (P : List PNode) (a : Nat) :
    hintEntriesIn env P a a = [] := by
  unfold hintEntriesIn
  simp

/-- Delivering the blocked node's `load`/`error` event mid-drain: the walk
resumes from the blocked node and either pauses at the next blocking node or
drains to the end, resolving the stored `close()` promise. -/
theorem stepBlockedEvent_drainMid (env : List String) (P : List PNode) (b1 b : Nat)
    (hP : wfParse P = true) (hb : b < P.length)
    (hbl : isBlockingData env (nodeAt P b).data = true) (hb1b : b1 ≤ b) :
    stepBlockedEvent env (drainMid env P b1 b) =
      match findBlockFrom env P (b + 1) with
      | some b2 => drainMid env P b1 b2
      | none => drainedState env P b1 := by
  have hph : parentHostIdx P b = none := blocking_parentHost_none env P b hP hb hbl
  have hmem : (⟨.clone b, liveParentOf P b, .nodeContent (nodeAt P b).data⟩ : LEntry) ∈
      (drainMid env P b1 b).live := by
    unfold drainMid
    dsimp only
    rw [List.mem_append]
    rcases Nat.eq_or_lt_of_le hb1b with heq | hlt
    · left
      rw [List.mem_append]
      exact Or.inl (clone_mem_mirrorRange P 0 (b1 + 1) b (by omega) (by omega) hph)
    · right
      exact clone_mem_mirrorRange P (b1 + 1) (b + 1) b (by omega) (by omega) hph
  have hany : ((drainMid env P b1 b).live.any fun en => en.id == .clone b) = true := by
    rw [List.any_eq_true]
    exact ⟨_, hmem, by simp⟩
  unfold stepBlockedEvent
  dsimp only [drainMid]
  rw [if_pos (by simpa [drainMid] using hany)]
  have hready :
      ({ parsed := P, walkerPos := b + 1
         scanPos := if b1 + 1 < P.length then some P.length else none
         pendingText := prevPendingAt P (b + 1), inlineHost := prevHostAt P (b + 1)
         isBlocked := false, blockedHandler := none, closeWaiter := true
         resolved := false
         live := mirrorRange P 0 (b1 + 1) ++ hintEntriesIn env P (b1 + 1) P.length ++
           mirrorRange P (b1 + 1) (b + 1)
         scanLog := List.range' (b1 + 1) (P.length - (b1 + 1))
         hintLog := (List.range' (b1 + 1) (P.length - (b1 + 1))).filter (hintable env P)
         evals := evalsRange P 0 (b + 1) } : SState) =
      readyState P (b + 1) (if b1 + 1 < P.length then some P.length else none) none
        true false
        (mirrorRange P 0 (b1 + 1) ++ hintEntriesIn env P (b1 + 1) P.length ++
          mirrorRange P (b1 + 1) (b + 1))
        (List.range' (b1 + 1) (P.length - (b1 + 1)))
        ((List.range' (b1 + 1) (P.length - (b1 + 1))).filter (hintable env P))
        (evalsRange P 0 (b + 1)) := rfl
  unfold walk
  rw [if_neg (by simp)]
  rw [hready, walkAux_ready env P hP (b + 1) (by omega)]
  cases hfb2 : findBlockFrom env P (b + 1) with
  | some b2 =>
    dsimp only
    have hb2 := findBlockFrom_some env P (b + 1) b2 hfb2
    have hsp : b1 + 1 < P.length := by omega
    rw [if_pos hsp]
    have hgd : (Option.getD (some P.length) (b2 + 1)) = P.length := rfl
    rw [hgd]
    simp only [ite_self, Nat.sub_self, hintEntriesIn_nil,
      List.append_nil, List.range'_zero, List.filter_nil]
    rw [List.append_assoc (mirrorRange P 0 (b1 + 1) ++ hintEntriesIn env P (b1 + 1) P.length),
      ← mirrorRange_split P (b1 + 1) (b + 1) (b2 + 1) (by omega) (by omega),
      ← evalsRange_split P 0 (b + 1) (b2 + 1) (by omega) (by omega)]
  | none =>
    dsimp only
    unfold drainedState
    rw [List.append_assoc (mirrorRange P 0 (b1 + 1) ++ hintEntriesIn env P (b1 + 1) P.length),
      ← mirrorRange_split P (b1 + 1) (b + 1) P.length (by omega) (by omega),
      ← evalsRange_split P 0 (b + 1) P.length (by omega) (by omega)]
    rfl

theorem drainRun_drainMid (env : List String) (P : List PNode) (b1 : Nat)
    (hP : wfParse P = true) :
    ∀ fuel b, b1 ≤ b → b < P.length → isBlockingData env (nodeAt P b).data = true →
      P.length - b ≤ fuel →
      drainRun env fuel (drainMid env P b1 b) = drainedState env P b1 := by
  intro fuel
  induction fuel with
  | zero =>
    intro b h1 h2 h3 h4
    omega
  | succ f ih =>
    intro b h1 h2 h3 h4
    rw [drainRun, if_pos (show (drainMid env P b1 b).isBlocked = true from rfl),
      stepBlockedEvent_drainMid env P b1 b hP h2 h3 h1]
    cases hfb2 : findBlockFrom env P (b + 1) with
    | some b2 =>
      have hb2 := findBlockFrom_some env P (b + 1) b2 hfb2
      exact ih b2 (by omega) hb2.2.1 hb2.2.2 (by omega)
    | none =>
      exact drainRun_not_blocked env f _ rfl

theorem mirrorState_parsed (env : List String) (P : List PNode) :
    (mirrorState env P).parsed = P := rfl

/-- A complete session: feed the chunks, call `close()`, then let every
outstanding blocking resource fire its `load`/`error` event until the
session is no longer blocked (the parse-tree size bounds the number of
blocking pauses). -/
def sessionRun (env : List String) (css : List (List ParseEvent)) : SState :=
  drainRun env (runWrites env css).parsed.length (stepClose (runWrites env css))

/-- Characterization of a complete session over a well-formed stream:
without any blocking node, `close()` resolves at once on the fully mirrored
state; with a first blocking node `b1`, the drained state has every node
mirrored, the hints inserted after the prefix `0..b1`, and the close promise
resolved. -/
theorem sessionRun_eq (env : List String) (css : List (List ParseEvent))
    (hwf : wfEvents [] css.flatten = true) :
    sessionRun env css =
      match findBlockFrom env (applyEvents [] css.flatten) 0 with
      | none => stepClose (mirrorState env (applyEvents [] css.flatten))
      | some b1 => drainedState env (applyEvents [] css.flatten) b1 := by
  have hPwf : wfParse (applyEvents [] css.flatten) = true :=
    wfParse_applyEvents css.flatten [] rfl hwf
  unfold sessionRun
  rw [runWrites_eq env css hwf]
  cases hfb : findBlockFrom env (applyEvents [] css.flatten) 0 with
  | none =>
    dsimp only
    apply drainRun_not_blocked
    rw [mirrorState_of_none env _ hfb]
    rfl
  | some b1 =>
    dsimp only
    rw [stepClose_blocked env _ b1 hPwf hfb, mirrorState_parsed]
    have hb1 := findBlockFrom_some env _ 0 b1 hfb
    exact drainRun_drainMid env _ b1 hPwf _ b1 (Nat.le_refl _) hb1.2.1 hb1.2.2
      (by omega)

/-- C7: for a classic non-external script, `evalScript` saves the existing
`currentScript` descriptor before installing the override, registers
restoration on both the `load` and the `error` path of the evaluated clone,
and either path puts the saved descriptor back — the override is never left
installed; for a module or external script no override is installed at
all. -/
theorem evalScript_currentScript_scoped (e e2 : Elem) (si si2 d : Nat)
    (proto : CurScriptDesc)
    (hclassic : scriptTypeProp e ≠ "module") (hinline : e.srcAttr = none)
    (hother : scriptTypeProp e2 = "module" ∨ e2.srcAttr.isSome = true) :
    ((evalScriptModel e si (.original d)).savedDesc = some (.original d) ∧
      (evalScriptModel e si (.original d)).protoAfter = .overrideFor si ∧
      (evalScriptModel e si (.original d)).onLoadRestore = true ∧
      (evalScriptModel e si (.original d)).onErrorRestore = true ∧
      protoAfterLoad (evalScriptModel e si (.original d)) = .original d ∧
      protoAfterError (evalScriptModel e si (.original d)) = .original d) ∧
    ((evalScriptModel e2 si2 proto).protoAfter = proto ∧
      (evalScriptModel e2 si2 proto).savedDesc = none ∧
      (evalScriptModel e2 si2 proto).onLoadRestore = false ∧
      (evalScriptModel e2 si2 proto).onErrorRestore = false) := by
  constructor
  · have hcond : ((scriptTypeProp e != "module") && e.srcAttr.isNone) = true := by
      simp [hinline, bne_iff_ne, hclassic]
    unfold evalScriptModel
    rw [if_pos hcond]
    simp [protoAfterLoad, protoAfterError]
  · have hcond : ((scriptTypeProp e2 != "module") && e2.srcAttr.isNone) = false := by
      rcases hother with h | h
      · simp [h]
      · rcases Option.isSome_iff_exists.mp h with ⟨u, hu⟩
        simp [hu]
    unfold evalScriptModel
    rw [if_neg (by simp [hcond])]
    exact ⟨rfl, rfl, rfl, rfl⟩

theorem evalScript_currentScript_scoped_witness :
    ((evalScriptModel (plainElem "SCRIPT") 1 (.original 5)).savedDesc =
        some (.original 5) ∧
      (evalScriptModel (plainElem "SCRIPT") 1 (.original 5)).protoAfter =
        .overrideFor 1 ∧
      (evalScriptModel (plainElem "SCRIPT") 1 (.original 5)).onLoadRestore = true ∧
      (evalScriptModel (plainElem "SCRIPT") 1 (.original 5)).onErrorRestore = true ∧
      protoAfterLoad (evalScriptModel (plainElem "SCRIPT") 1 (.original 5)) =
        .original 5 ∧
      protoAfterError (evalScriptModel (plainElem "SCRIPT") 1 (.original 5)) =
        .original 5) ∧
    ((evalScriptModel { plainElem "SCRIPT" with srcAttr := some "u" } 2
        (.original 5)).protoAfter = .original 5 ∧
      (evalScriptModel { plainElem "SCRIPT" with srcAttr := some "u" } 2
        (.original 5)).savedDesc = none ∧
      (evalScriptModel { plainElem "SCRIPT" with srcAttr := some "u" } 2
        (.original 5)).onLoadRestore = false ∧
      (evalScriptModel { plainElem "SCRIPT" with srcAttr := some "u" } 2
        (.original 5)).onErrorRestore = false) :=
  evalScript_currentScript_scoped (plainElem "SCRIPT")
    { plainElem "SCRIPT" with srcAttr := some "u" } 1 2 5 (.original 5)
    (by decide) rfl (Or.inr (by decide))

/-- C8, counterexample: with the `currentScript` descriptor missing from the
document prototype, `evalScript` does NOT fail fatally: `console.assert`
logs its message (`assertTriggered`), and execution continues — the override
is installed and the clone is appended for evaluation, with no restore
listener registered.  This refutes the claim that the engine "fails ...
rather than continuing". -/
theorem evalScript_missing_desc_continues_counterexample :
    (evalScriptModel (plainElem "SCRIPT") 0 .missing).assertTriggered = true ∧
    (evalScriptModel (plainElem "SCRIPT") 0 .missing).cloneAppended = true ∧
    (evalScriptModel (plainElem "SCRIPT") 0 .missing).protoAfter = .overrideFor 0 ∧
    (evalScriptModel (plainElem "SCRIPT") 0 .missing).onLoadRestore = false := by
  decide

/-- C8, amended: when the `currentScript` override point is missing, the
engine surfaces the condition loudly (the `console.assert` message fires)
but execution is not aborted: the override is installed, the clone is
appended (evaluation proceeds), and no restoration is registered, so the
override stays installed afterwards. -/
theorem evalScript_missing_desc_logs_and_continues (e : Elem) (si : Nat)
    (hclassic : scriptTypeProp e ≠ "module") (hinline : e.srcAttr = none) :
    (evalScriptModel e si .missing).assertTriggered = true ∧
    (evalScriptModel e si .missing).cloneAppended = true ∧
    (evalScriptModel e si .missing).protoAfter = .overrideFor si ∧
    (evalScriptModel e si .missing).savedDesc = none ∧
    (evalScriptModel e si .missing).onLoadRestore = false ∧
    (evalScriptModel e si .missing).onErrorRestore = false ∧
    protoAfterLoad (evalScriptModel e si .missing) = .overrideFor si := by
  have hcond : ((scriptTypeProp e != "module") && e.srcAttr.isNone) = true := by
    simp [hinline, bne_iff_ne, hclassic]
  unfold evalScriptModel
  rw [if_pos hcond]
  simp [protoAfterLoad]

theorem evalScript_missing_desc_logs_and_continues_witness :
    (evalScriptModel (plainElem "SCRIPT") 3 .missing).assertTriggered = true ∧
    (evalScriptModel (plainElem "SCRIPT") 3 .missing).cloneAppended = true ∧
    (evalScriptModel (plainElem "SCRIPT") 3 .missing).protoAfter = .overrideFor 3 ∧
    (evalScriptModel (plainElem "SCRIPT") 3 .missing).savedDesc = none ∧
    (evalScriptModel (plainElem "SCRIPT") 3 .missing).onLoadRestore = false ∧
    (evalScriptModel (plainElem "SCRIPT") 3 .missing).onErrorRestore = false ∧
    protoAfterLoad (evalScriptModel (plainElem "SCRIPT") 3 .missing) =
      .overrideFor 3 :=
  evalScript_missing_desc_logs_and_continues (plainElem "SCRIPT") 3 (by decide) rfl

/-- The number of live entries carrying a given identity. -/
def countId (L : List LEntry) (x : LiveId) : Nat :=
  (L.filter fun en => en.id == x).length

theorem countId_append (A B : List LEntry) (x : LiveId) :
    countId (A ++ B) x = countId A x + countId B x := by
  simp [countId]

theorem countId_nil (x : LiveId) : countId [] x = 0 := rfl

theorem mem_hintEntriesIn (env : List String) (P : List PNode) (a b : Nat)
    (en : LEntry) (h : en ∈ hintEntriesIn env P a b) :
    ∃ j l, a ≤ j ∧ j < b ∧
      en = ⟨.preload j, none, .preloadContent l⟩ ∧
      getPreloadLinkData env (nodeAt P j).data = some l := by
  unfold hintEntriesIn at h
  rw [List.mem_filterMap] at h
  obtain ⟨j, hj, hen⟩ := h
  have hj' := List.mem_range'_1.mp hj
  cases hg : getPreloadLinkData env (nodeAt P j).data with
  | none => rw [hg] at hen; cases hen
  | some l =>
    rw [hg] at hen
    simp only [Option.map_some', Option.some.injEq] at hen
    exact ⟨j, l, hj'.1, by omega, hen.symm, hg⟩

theorem countId_hintEntriesIn_clone (env : List String) (P : List PNode)
    (a b i : Nat) : countId (hintEntriesIn env P a b) (.clone i) = 0 := by
  unfold countId
  rw [List.length_eq_zero, List.filter_eq_nil_iff]
  intro en hen
  obtain ⟨j, l, _, _, rfl, _⟩ := mem_hintEntriesIn env P a b en hen
  simp [beq_iff_eq]

theorem countId_hintEntriesIn_moved (env : List String) (P : List PNode)
    (a b i : Nat) : countId (hintEntriesIn env P a b) (.moved i) = 0 := by
  unfold countId
  rw [List.length_eq_zero, List.filter_eq_nil_iff]
  intro en hen
  obtain ⟨j, l, _, _, rfl, _⟩ := mem_hintEntriesIn env P a b en hen
  simp [beq_iff_eq]

theorem flush_host_of_mem {P : List PNode} {p host : Option Nat} {en : LEntry}
    (hen : en ∈ flushEntries P p host) :
    ∃ pt hh, p = some pt ∧ host = some hh ∧
      en = ⟨.moved pt, some (.clone hh), .nodeContent (nodeAt P pt).data⟩ := by
  cases p with
  | none => simp [flushEntries] at hen
  | some pt =>
    cases host with
    | none => simp [flushEntries] at hen
    | some hh =>
      simp only [flushEntries, List.mem_singleton] at hen
      exact ⟨pt, hh, rfl, rfl, hen⟩

theorem prevHost_some_parentHost {P : List PNode} {k hh : Nat}
    (h : prevHostAt P k = some hh) :
    ∃ m, k = m + 1 ∧ parentHostIdx P m = some hh := by
  cases k with
  | zero => cases h
  | succ m => exact ⟨m, rfl, h⟩

theorem countId_entriesAt_clone_ne (P : List PNode) (j i : Nat) (hij : j ≠ i) :
    countId (entriesAt P j) (.clone i) = 0 := by
  unfold countId entriesAt
  rw [List.length_eq_zero, List.filter_eq_nil_iff]
  intro en hen
  split at hen
  · cases hen
  · rw [List.mem_append] at hen
    rcases hen with hen | hen
    · obtain ⟨pt, hh, _, _, rfl⟩ := flush_host_of_mem hen
      simp [beq_iff_eq]
    · simp only [List.mem_singleton] at hen
      subst hen
      simp [beq_iff_eq, hij]

theorem countId_entriesAt_clone_self (P : List PNode) (i : Nat) :
    countId (entriesAt P i) (.clone i) =
      if parentHostIdx P i = none then 1 else 0 := by
  unfold entriesAt
  cases hph : parentHostIdx P i with
  | some hh => simp [countId]
  | none =>
    rw [if_pos rfl, countId_append]
    have hf : countId (flushEntries P (prevPendingAt P i) (prevHostAt P i))
        (.clone i) = 0 := by
      unfold countId
      rw [List.length_eq_zero, List.filter_eq_nil_iff]
      intro en hen
      obtain ⟨pt, hh, _, _, rfl⟩ := flush_host_of_mem hen
      simp [beq_iff_eq]
    rw [hf]
    simp [countId]

theorem countId_entriesAt_moved (P : List PNode) (j i : Nat)
    (hph : parentHostIdx P i = none) :
    countId (entriesAt P j) (.moved i) = 0 := by
  unfold countId entriesAt
  rw [List.length_eq_zero, List.filter_eq_nil_iff]
  intro en hen
  split at hen
  · cases hen
  · rw [List.mem_append] at hen
    rcases hen with hen | hen
    · obtain ⟨pt, hh, hpp, hhost, rfl⟩ := flush_host_of_mem hen
      obtain ⟨m, hm, hmh⟩ := prevHost_some_parentHost hhost
      obtain ⟨hm2, _⟩ := prevPendingAt_some hpp
      have hpt : pt = m := by omega
      subst hpt
      simp only [beq_iff_eq, LiveId.moved.injEq]
      intro hpe
      subst hpe
      rw [hph] at hmh
      cases hmh
    · simp only [List.mem_singleton] at hen
      subst hen
      simp [beq_iff_eq]

theorem countId_mirrorRange_clone (P : List PNode) (i : Nat) :
    ∀ a c, countId (mirrorRange P a c) (.clone i) =
      if a ≤ i ∧ i < c ∧ parentHostIdx P i = none then 1 else 0 := by
  intro a c
  induction' hn : c - a with m ih generalizing a
  · rw [mirrorRange_empty P a c (by omega), if_neg (by omega)]
    rfl
  · rw [mirrorRange_cons P a c (by omega), countId_append, ih (a + 1) (by omega)]
    by_cases hai : a = i
    · subst hai
      rw [countId_entriesAt_clone_self]
      cases hph : parentHostIdx P a with
      | some hh =>
        have h1 : ¬(a + 1 ≤ a ∧ a < c ∧ some hh = none) := by
          rintro ⟨h1, -, -⟩; omega
        have h2 : ¬(a ≤ a ∧ a < c ∧ some hh = none) := by
          rintro ⟨-, -, h3⟩; cases h3
        rw [if_neg (by simp), if_neg h1, if_neg h2]
      | none =>
        have h1 : ¬(a + 1 ≤ a ∧ a < c ∧ (none : Option Nat) = none) := by
          rintro ⟨h1, -, -⟩; omega
        rw [if_pos rfl, if_neg h1, if_pos ⟨Nat.le_refl _, by omega, rfl⟩]
    · rw [countId_entriesAt_clone_ne P a i hai]
      by_cases hic : a + 1 ≤ i ∧ i < c ∧ parentHostIdx P i = none
      · rw [if_pos hic, if_pos ⟨by omega, hic.2.1, hic.2.2⟩]
      · have hneg : ¬(a ≤ i ∧ i < c ∧ parentHostIdx P i = none) := by
          rintro ⟨h1, h2, h3⟩
          exact hic ⟨by omega, h2, h3⟩
        rw [if_neg hic, if_neg hneg]

theorem countId_mirrorRange_moved (P : List PNode) (i : Nat)
    (hph : parentHostIdx P i = none) :
    ∀ a c, countId (mirrorRange P a c) (.moved i) = 0 := by
  intro a c
  induction' hn : c - a with m ih generalizing a
  · rw [mirrorRange_empty P a c (by omega)]
    rfl
  · rw [mirrorRange_cons P a c (by omega), countId_append,
      countId_entriesAt_moved P a i hph, ih (a + 1) (by omega)]

theorem mem_mirrorRange_id_lt (P : List PNode) (a c : Nat) (en : LEntry)
    (h : en ∈ mirrorRange P a c) :
    ∀ x, (en.id = .clone x ∨ en.id = .moved x) → x < c := by
  unfold mirrorRange at h
  rw [List.mem_flatMap] at h
  obtain ⟨i, hi, hen⟩ := h
  have hi' := List.mem_range'_1.mp hi
  unfold entriesAt at hen
  split at hen
  · cases hen
  · rw [List.mem_append] at hen
    intro x hx
    rcases hen with hen | hen
    · obtain ⟨pt, hh, hpp, hhost, rfl⟩ := flush_host_of_mem hen
      obtain ⟨hpt, _⟩ := prevPendingAt_some hpp
      rcases hx with hx | hx
      · cases hx
      · simp only [LiveId.moved.injEq] at hx
        omega
    · simp only [List.mem_singleton] at hen
      subst hen
      rcases hx with hx | hx
      · simp only [LiveId.clone.injEq] at hx
        omega
      · cases hx

theorem clone_content_of_mem (P : List PNode) (a c i : Nat) (en : LEntry)
    (hen : en ∈ mirrorRange P a c) (hid : en.id = .clone i) :
    en.content = .nodeContent (nodeAt P i).data := by
  unfold mirrorRange at hen
  rw [List.mem_flatMap] at hen
  obtain ⟨j, hj, hen⟩ := hen
  unfold entriesAt at hen
  split at hen
  · cases hen
  · rw [List.mem_append] at hen
    rcases hen with hen | hen
    · obtain ⟨pt, hh, _, _, rfl⟩ := flush_host_of_mem hen
      cases hid
    · simp only [List.mem_singleton] at hen
      subst hen
      simp only [LiveId.clone.injEq] at hid
      subst hid
      rfl

theorem countId_flush_clone (P : List PNode) (p host : Option Nat) (i : Nat) :
    countId (flushEntries P p host) (.clone i) = 0 := by
  unfold countId
  rw [List.length_eq_zero, List.filter_eq_nil_iff]
  intro en hen
  obtain ⟨pt, hh, _, _, rfl⟩ := flush_host_of_mem hen
  simp [beq_iff_eq]

theorem countId_flush_moved (P : List PNode) (k i : Nat)
    (hph : parentHostIdx P i = none) :
    countId (flushEntries P (prevPendingAt P k) (prevHostAt P k)) (.moved i) = 0 := by
  unfold countId
  rw [List.length_eq_zero, List.filter_eq_nil_iff]
  intro en hen
  obtain ⟨pt, hh, hpp, hhost, rfl⟩ := flush_host_of_mem hen
  obtain ⟨m, hm, hmh⟩ := prevHost_some_parentHost hhost
  obtain ⟨hm2, _⟩ := prevPendingAt_some hpp
  have hpt : pt = m := by omega
  subst hpt
  simp only [beq_iff_eq, LiveId.moved.injEq]
  intro hpe
  subst hpe
  rw [hph] at hmh
  cases hmh

/-- The parse indices mirrored as clones into the live target, in live
sibling order. -/
def cloneIdxs (L : List LEntry) : List Nat :=
  L.filterMap fun en =>
    match en.id with
    | .clone i => some i
    | _ => none

theorem cloneIdxs_append (A B : List LEntry) :
    cloneIdxs (A ++ B) = cloneIdxs A ++ cloneIdxs B := by
  simp [cloneIdxs]

theorem cloneIdxs_hint (env : List String) (P : List PNode) (a b : Nat) :
    cloneIdxs (hintEntriesIn env P a b) = [] := by
  unfold cloneIdxs
  rw [List.filterMap_eq_nil_iff]
  intro en hen
  obtain ⟨j, l, _, _, rfl, _⟩ := mem_hintEntriesIn env P a b en hen
  rfl

theorem cloneIdxs_flush (P : List PNode) (p host : Option Nat) :
    cloneIdxs (flushEntries P p host) = [] := by
  unfold cloneIdxs
  rw [List.filterMap_eq_nil_iff]
  intro en hen
  obtain ⟨pt, hh, _, _, rfl⟩ := flush_host_of_mem hen
  rfl

theorem cloneIdxs_entriesAt (P : List PNode) (j : Nat) :
    cloneIdxs (entriesAt P j) = if parentHostIdx P j = none then [j] else [] := by
  unfold entriesAt
  cases hph : parentHostIdx P j with
  | some hh => simp [cloneIdxs]
  | none =>
    rw [if_pos rfl, cloneIdxs_append, cloneIdxs_flush]
    simp [cloneIdxs]

theorem cloneIdxs_mirrorRange_mem (P : List PNode) :
    ∀ a c x, x ∈ cloneIdxs (mirrorRange P a c) → a ≤ x ∧ x < c := by
  intro a c x hx
  unfold cloneIdxs at hx
  rw [List.mem_filterMap] at hx
  obtain ⟨en, hen, hid⟩ := hx
  have hcl : en.id = .clone x := by
    rcases hhd : en.id with i | i | i <;> rw [hhd] at hid
    · simp only [Option.some.injEq] at hid
      rw [hid]
    · cases hid
    · cases hid
  refine ⟨?_, mem_mirrorRange_id_lt P a c en hen x (Or.inl hcl)⟩
  rcases mem_mirrorRange_id P a c en hen with ⟨i2, hi2a, _, hide⟩ | ⟨pt, hide⟩
  · rw [hcl] at hide
    cases hide
    exact hi2a
  · rw [hcl] at hide
    cases hide

theorem cloneIdxs_mirrorRange_pairwise (P : List PNode) :
    ∀ a c, List.Pairwise (· < ·) (cloneIdxs (mirrorRange P a c)) := by
  intro a c
  induction' hn : c - a with m ih generalizing a
  · rw [mirrorRange_empty P a c (by omega)]
    exact List.Pairwise.nil
  · rw [mirrorRange_cons P a c (by omega), cloneIdxs_append, List.pairwise_append]
    refine ⟨?_, ih (a + 1) (by omega), ?_⟩
    · rw [cloneIdxs_entriesAt]
      split <;> simp
    · intro x hx y hy
      rw [cloneIdxs_entriesAt] at hx
      have hxa : x = a := by
        split at hx
        · simpa using hx
        · cases hx
      have hya := (cloneIdxs_mirrorRange_mem P (a + 1) c y hy).1
      omega

theorem chunk_boundary_independence_witness :
    wfEvents []
      ([[ParseEvent.node none (.elem (plainElem "DIV"))],
        [ParseEvent.node (some 0) (.text "hi"), ParseEvent.moreText "!"]]).flatten
      = true ∧
    drainRun [] 2 (stepClose (runWrites []
        [[ParseEvent.node none (.elem (plainElem "DIV"))],
         [ParseEvent.node (some 0) (.text "hi"), ParseEvent.moreText "!"]])) =
      drainRun [] 2 (stepClose (runWrites []
        [([[ParseEvent.node none (.elem (plainElem "DIV"))],
           [ParseEvent.node (some 0) (.text "hi"),
            ParseEvent.moreText "!"]]).flatten])) :=
  ⟨by decide,
   chunk_boundary_independence []
     [[ParseEvent.node none (.elem (plainElem "DIV"))],
      [ParseEvent.node (some 0) (.text "hi"), ParseEvent.moreText "!"]]
     (by decide) 2⟩

/-- C2: a classic external script (present `src`, none of
`async`/`defer`/`module`/`nomodule`) that is the first blocking node of the
stream suspends mirroring of every later node: after the writes the session
is blocked and no node after the script has any live counterpart (clone or
moved text); mirrored order equals parse order both at the pause and in the
fully drained session (the clone indices in the live list are strictly
increasing); and once the block clears every later structural node is
mirrored exactly once. -/
theorem blocking_script_suspends_mirroring (env : List String)
    (css : List (List ParseEvent)) (P : List PNode) (b : Nat) (e : Elem)
    (hP : P = applyEvents [] css.flatten)
    (hwf : wfEvents [] css.flatten = true)
    (hb : b < P.length)
    (hdata : (nodeAt P b).data = .elem e)
    (htag : e.tag = "SCRIPT") (hsrc : e.srcAttr.isSome = true)
    (hnm : e.noModule = false) (hmod : (scriptTypeProp e == "module") = false)
    (ha : e.hasAsync = false) (hd : e.hasDefer = false)
    (hfirst : ∀ i, i < b → isBlockingData env (nodeAt P i).data = false) :
    (runWrites env css).isBlocked = true ∧
    (∀ j, b < j → ∀ en, en ∈ (runWrites env css).live →
      en.id ≠ .clone j ∧ en.id ≠ .moved j) ∧
    List.Pairwise (· < ·) (cloneIdxs (runWrites env css).live) ∧
    List.Pairwise (· < ·) (cloneIdxs (sessionRun env css).live) ∧
    (∀ j, b < j → j < P.length → parentHostIdx P j = none →
      countId (sessionRun env css).live (.clone j) = 1) := by
  subst hP
  set P := applyEvents [] css.flatten with hPdef
  have hbl : isBlockingData env (nodeAt P b).data = true := by
    rw [hdata]
    simp [isBlockingData, isBlockingElem, htag, hsrc, hnm, hmod, ha, hd]
  have hfb : findBlockFrom env P 0 = some b :=
    findBlockFrom_intro_some env P b 0 (Nat.zero_le b) hb hbl
      (fun i _ h2 => hfirst i h2)
  have hrw : runWrites env css = mirrorState env P := runWrites_eq env css hwf
  have hms := mirrorState_of_some env P b hfb
  have hsr : sessionRun env css = drainedState env P b := by
    rw [sessionRun_eq env css hwf]
    rw [← hPdef, hfb]
  refine ⟨?_, ?_, ?_, ?_, ?_⟩
  · rw [hrw, hms]
  · intro j hj en hen
    rw [hrw, hms] at hen
    dsimp only at hen
    rcases List.mem_append.mp hen with hen | hen
    · have hlt := mem_mirrorRange_id_lt P 0 (b + 1) en hen
      constructor
      · intro hc
        have := hlt j (Or.inl hc)
        omega
      · intro hm
        have := hlt j (Or.inr hm)
        omega
    · obtain ⟨j2, l, _, _, rfl, _⟩ := mem_hintEntriesIn env P (b + 1) P.length en hen
      exact ⟨by simp, by simp⟩
  · rw [hrw, hms]
    dsimp only
    rw [cloneIdxs_append, cloneIdxs_hint, List.append_nil]
    exact cloneIdxs_mirrorRange_pairwise P 0 (b + 1)
  · rw [hsr]
    dsimp only [drainedState]
    rw [cloneIdxs_append, cloneIdxs_append, cloneIdxs_hint, List.append_nil,
      List.pairwise_append]
    refine ⟨cloneIdxs_mirrorRange_pairwise P 0 (b + 1),
      cloneIdxs_mirrorRange_pairwise P (b + 1) P.length, ?_⟩
    intro x hx y hy
    have hxb := (cloneIdxs_mirrorRange_mem P 0 (b + 1) x hx).2
    have hyb := (cloneIdxs_mirrorRange_mem P (b + 1) P.length y hy).1
    omega
  · intro j hj hjl hph
    rw [hsr]
    dsimp only [drainedState]
    rw [countId_append, countId_append, countId_hintEntriesIn_clone,
      countId_mirrorRange_clone, countId_mirrorRange_clone,
      if_neg (by omega), if_pos ⟨by omega, hjl, hph⟩]

theorem blocking_script_suspends_mirroring_witness :
    (runWrites []
      [[ParseEvent.node none
          (.elem { plainElem "SCRIPT" with srcAttr := some "app.js" })],
       [ParseEvent.node none (.elem (plainElem "P"))]]).isBlocked = true :=
  (blocking_script_suspends_mirroring []
    [[ParseEvent.node none
        (.elem { plainElem "SCRIPT" with srcAttr := some "app.js" })],
     [ParseEvent.node none (.elem (plainElem "P"))]]
    _ 0 { plainElem "SCRIPT" with srcAttr := some "app.js" }
    rfl (by decide) (by decide) (by decide) rfl (by decide) rfl (by decide)
    (by decide) (by decide) (fun i hi => absurd hi (Nat.not_lt_zero i))).1

/-- C3: a logical text node whose content arrived across several `write`
calls (later pieces delivered as `moreText` extensions of the same parse
node) ends up, after the session completes, as exactly one live clone whose
content is the full concatenated text: one clone entry, no moved duplicate,
and every clone entry for it carries the concatenation. -/
theorem text_coalesces_into_single_live_node (env : List String)
    (css : List (List ParseEvent)) (P : List PNode) (i : Nat) (s : String)
    (hP : P = applyEvents [] css.flatten)
    (hwf : wfEvents [] css.flatten = true)
    (hi : i < P.length)
    (hdata : (nodeAt P i).data = .text s)
    (hph : parentHostIdx P i = none) :
    countId (sessionRun env css).live (.clone i) = 1 ∧
    countId (sessionRun env css).live (.moved i) = 0 ∧
    ∀ en, en ∈ (sessionRun env css).live → en.id = .clone i →
      en.content = .nodeContent (.text s) := by
  subst hP
  set P := applyEvents [] css.flatten with hPdef
  cases hfb : findBlockFrom env P 0 with
  | none =>
    have hsr : sessionRun env css = stepClose (mirrorState env P) := by
      rw [sessionRun_eq env css hwf]
      rw [← hPdef, hfb]
    have hlive : (stepClose (mirrorState env P)).live =
        mirrorRange P 0 P.length ++
          flushEntries P (prevPendingAt P P.length) (prevHostAt P P.length) := by
      rw [mirrorState_of_none env P hfb]
      rfl
    rw [hsr, hlive]
    refine ⟨?_, ?_, ?_⟩
    · rw [countId_append, countId_flush_clone,
        countId_mirrorRange_clone, if_pos ⟨Nat.zero_le i, hi, hph⟩]
    · rw [countId_append, countId_mirrorRange_moved P i hph,
        countId_flush_moved P P.length i hph]
    · intro en hen hid
      rcases List.mem_append.mp hen with hen | hen
      · rw [clone_content_of_mem P 0 P.length i en hen hid, hdata]
      · obtain ⟨pt, hh, _, _, rfl⟩ := flush_host_of_mem hen
        cases hid
  | some b1 =>
    have hsr : sessionRun env css = drainedState env P b1 := by
      rw [sessionRun_eq env css hwf]
      rw [← hPdef, hfb]
    rw [hsr]
    dsimp only [drainedState]
    refine ⟨?_, ?_, ?_⟩
    · rw [countId_append, countId_append, countId_hintEntriesIn_clone,
        countId_mirrorRange_clone, countId_mirrorRange_clone]
      by_cases hib : i < b1 + 1
      · rw [if_pos ⟨Nat.zero_le i, hib, hph⟩, if_neg (by omega)]
      · rw [if_neg (by omega), if_pos ⟨by omega, hi, hph⟩]
    · rw [countId_append, countId_append, countId_hintEntriesIn_moved,
        countId_mirrorRange_moved P i hph, countId_mirrorRange_moved P i hph]
    · intro en hen hid
      rcases List.mem_append.mp hen with hen | hen
      · rcases List.mem_append.mp hen with hen | hen
        · rw [clone_content_of_mem P 0 (b1 + 1) i en hen hid, hdata]
        · obtain ⟨j2, l, _, _, rfl, _⟩ :=
            mem_hintEntriesIn env P (b1 + 1) P.length en hen
          cases hid
      · rw [clone_content_of_mem P (b1 + 1) P.length i en hen hid, hdata]

theorem text_coalesces_into_single_live_node_witness :
    countId
      (sessionRun []
        [[ParseEvent.node none (.elem (plainElem "DIV")),
          ParseEvent.node (some 0) (.text "he")],
         [ParseEvent.moreText "llo"]]).live (.clone 1) = 1 :=
  (text_coalesces_into_single_live_node []
    [[ParseEvent.node none (.elem (plainElem "DIV")),
      ParseEvent.node (some 0) (.text "he")],
     [ParseEvent.moreText "llo"]]
    _ 1 "hello" rfl (by decide) (by decide) (by decide) (by decide)).1

theorem stepAbort_of_blocked (st : SState) (hb : st.isBlocked = true) :
    stepAbort st =
      { st with live := st.live.filter fun en => en.id ≠ .clone (st.walkerPos - 1) } := by
  unfold stepAbort
  rw [if_pos hb]

theorem stepBlockedEvent_no_clone (env : List String) (st : SState) (b : Nat)
    (hbh : st.blockedHandler = some b)
    (hno : ∀ en, en ∈ st.live → en.id ≠ .clone b) :
    stepBlockedEvent env st = { st with isBlocked := false, blockedHandler := none } := by
  unfold stepBlockedEvent
  rw [hbh]
  dsimp only
  rw [if_neg ?hc]
  case hc =>
    rw [List.any_eq_true]
    rintro ⟨en, hen, hq⟩
    exact hno en hen (by simpa using hq)

/-- C4: `abort()` on a blocked session removes exactly the blocking node's
live counterpart — that counterpart was present exactly once, the live list
becomes its filter dropping precisely the entries with the blocking clone's
identity, every other already-mirrored entry stays, and nothing with the
blocking identity survives — while `abort()` on an unblocked session is a
no-op. -/
theorem abort_removes_only_blocking_clone (env : List String)
    (css : List (List ParseEvent)) (P : List PNode) (b : Nat)
    (hP : P = applyEvents [] css.flatten)
    (hwf : wfEvents [] css.flatten = true)
    (hfb : findBlockFrom env P 0 = some b) :
    countId (runWrites env css).live (.clone b) = 1 ∧
    (stepAbort (runWrites env css)).live =
      (runWrites env css).live.filter (fun en => en.id ≠ .clone b) ∧
    (∀ en, en ∈ (runWrites env css).live → en.id ≠ .clone b →
      en ∈ (stepAbort (runWrites env css)).live) ∧
    (∀ en, en ∈ (stepAbort (runWrites env css)).live → en.id ≠ .clone b) ∧
    (∀ st : SState, st.isBlocked = false → stepAbort st = st) := by
  subst hP
  set P := applyEvents [] css.flatten with hPdef
  have hPwf : wfParse P = true := wfParse_applyEvents css.flatten [] rfl hwf
  have hbsome := findBlockFrom_some env P 0 b hfb
  have hph : parentHostIdx P b = none :=
    blocking_parentHost_none env P b hPwf hbsome.2.1 hbsome.2.2
  have hrw := runWrites_eq env css hwf
  have hms := mirrorState_of_some env P b hfb
  have hb' : (runWrites env css).isBlocked = true := by rw [hrw, hms]
  have hfilt : (stepAbort (runWrites env css)).live =
      (runWrites env css).live.filter (fun en => en.id ≠ .clone b) := by
    rw [stepAbort_of_blocked _ hb']
    rw [hrw, hms]
    simp
  refine ⟨?_, hfilt, ?_, ?_, ?_⟩
  · rw [hrw, hms]
    dsimp only
    rw [countId_append, countId_hintEntriesIn_clone, countId_mirrorRange_clone,
      if_pos ⟨Nat.zero_le b, by omega, hph⟩]
  · intro en hen hne
    rw [hfilt]
    exact List.mem_filter.mpr ⟨hen, by simp [hne]⟩
  · intro en hen
    rw [hfilt] at hen
    have h2 := (List.mem_filter.mp hen).2
    simpa using h2
  · intro st hst
    unfold stepAbort
    rw [hst]
    simp

theorem abort_removes_only_blocking_clone_witness :
    countId
      (runWrites []
        [[ParseEvent.node none
            (.elem { plainElem "SCRIPT" with srcAttr := some "app.js" })],
         [ParseEvent.node none (.elem (plainElem "P"))]]).live (.clone 0) = 1 :=
  (abort_removes_only_blocking_clone []
    [[ParseEvent.node none
        (.elem { plainElem "SCRIPT" with srcAttr := some "app.js" })],
     [ParseEvent.node none (.elem (plainElem "P"))]]
    _ 0 rfl (by decide)
    (findBlockFrom_intro_some [] _ 0 0 (Nat.le_refl 0) (by decide) (by decide)
      (fun i _ hi => absurd hi (Nat.not_lt_zero i)))).1

/-- C10: once `abort()` has removed the blocked live clone, delivering the
blocking node's `load`/`error` event does not restart mirroring: the resume
callback finds the clone gone (no parent in the live tree), so the event
only clears the blocked flag — live entries, walker position and evaluations
are all left untouched. -/
theorem abort_then_block_event_no_restart (env : List String)
    (css : List (List ParseEvent)) (P : List PNode) (b : Nat)
    (hP : P = applyEvents [] css.flatten)
    (hwf : wfEvents [] css.flatten = true)
    (hfb : findBlockFrom env P 0 = some b) :
    stepBlockedEvent env (stepAbort (runWrites env css)) =
      { stepAbort (runWrites env css) with
        isBlocked := false, blockedHandler := none } := by
  subst hP
  set P := applyEvents [] css.flatten with hPdef
  have hrw := runWrites_eq env css hwf
  have hms := mirrorState_of_some env P b hfb
  have hb' : (runWrites env css).isBlocked = true := by rw [hrw, hms]
  have hbh : (stepAbort (runWrites env css)).blockedHandler = some b := by
    rw [stepAbort_of_blocked _ hb', hrw, hms]
  have hno : ∀ en, en ∈ (stepAbort (runWrites env css)).live → en.id ≠ .clone b := by
    intro en hen
    rw [stepAbort_of_blocked _ hb'] at hen
    dsimp only at hen
    have h2 := (List.mem_filter.mp hen).2
    have hwp : (runWrites env css).walkerPos = b + 1 := by rw [hrw, hms]
    rw [hwp] at h2
    simpa using h2
  exact stepBlockedEvent_no_clone env _ b hbh hno

theorem abort_then_block_event_no_restart_witness :
    stepBlockedEvent []
      (stepAbort (runWrites []
        [[ParseEvent.node none
            (.elem { plainElem "SCRIPT" with srcAttr := some "app.js" })],
         [ParseEvent.node none (.elem (plainElem "P"))]])) =
      { stepAbort (runWrites []
          [[ParseEvent.node none
              (.elem { plainElem "SCRIPT" with srcAttr := some "app.js" })],
           [ParseEvent.node none (.elem (plainElem "P"))]]) with
        isBlocked := false, blockedHandler := none } :=
  abort_then_block_event_no_restart []
    [[ParseEvent.node none
        (.elem { plainElem "SCRIPT" with srcAttr := some "app.js" })],
     [ParseEvent.node none (.elem (plainElem "P"))]]
    _ 0 rfl (by decide)
    (findBlockFrom_intro_some [] _ 0 0 (Nat.le_refl 0) (by decide) (by decide)
      (fun i _ hi => absurd hi (Nat.not_lt_zero i)))

/-- C9: a `write` delivered while the session is blocked performs no
mirroring: the mirror walker does not advance, no script is evaluated, the
session stays blocked, and the only change to the live target is the
insertion of preload-hint links produced by the lookahead over the newly
parsed nodes — every pre-existing live entry is preserved unchanged, in
place. -/
theorem write_while_blocked_only_lookahead (env : List String)
    (css : List (List ParseEvent)) (P : List PNode) (b : Nat)
    (evs : List ParseEvent)
    (hP : P = applyEvents [] css.flatten)
    (hwf : wfEvents [] css.flatten = true)
    (hevs : wfEvents P evs = true)
    (hfb : findBlockFrom env P 0 = some b) :
    ∃ hints,
      (stepWrite env (runWrites env css) evs).live =
        (runWrites env css).live ++ hints ∧
      (∀ en, en ∈ hints → ∃ j l,
        en = ⟨.preload j, none, .preloadContent l⟩) ∧
      (stepWrite env (runWrites env css) evs).walkerPos =
        (runWrites env css).walkerPos ∧
      (stepWrite env (runWrites env css) evs).evals = (runWrites env css).evals ∧
      (stepWrite env (runWrites env css) evs).isBlocked = true := by
  subst hP
  set P := applyEvents [] css.flatten with hPdef
  have hPwf : wfParse P = true := wfParse_applyEvents css.flatten [] rfl hwf
  have hT : treeExt P (applyEvents P evs) := applyEvents_treeExt evs P hevs
  set Q := applyEvents P evs with hQdef
  have hlen : P.length ≤ Q.length := hT.1
  have hbsome := findBlockFrom_some env P 0 b hfb
  have hbnt : isTextData (nodeAt P b).data = false :=
    blocking_not_text env _ hbsome.2.2
  have hfb' : findBlockFrom env Q 0 = some b := by
    apply findBlockFrom_intro_some env Q b 0 (by omega) (by omega)
    · rw [dataExt_isBlocking env (hT.2.2 b hbsome.2.1).2]
      exact hbsome.2.2
    · intro i h0 hib
      rw [dataExt_isBlocking env (hT.2.2 i (by omega)).2]
      exact findBlockFrom_min env P 0 b hfb i (by omega) hib
  have hrw := runWrites_eq env css hwf
  have hsw : stepWrite env (runWrites env css) evs = mirrorState env Q := by
    rw [hrw]
    exact stepWrite_mirrorState env P evs hPwf hevs
  have hle_b : ∀ x, x ≤ b → nodeAt Q x = nodeAt P x := by
    intro x hx
    rcases Nat.lt_or_ge (x + 1) P.length with h1 | h1
    · exact hT.2.1 x h1
    · have hxe : x = b := by omega
      subst hxe
      exact treeExt_nodeAt_eq hT x (Or.inr ⟨by omega, hbnt⟩)
  have hmirr : mirrorRange Q 0 (b + 1) = mirrorRange P 0 (b + 1) := by
    apply mirrorRange_congr
    intro i _ hi
    exact entriesAt_congr i (fun x hx => hle_b x (by omega))
  have hhint1 : hintEntriesIn env Q (b + 1) P.length =
      hintEntriesIn env P (b + 1) P.length := by
    apply hintEntriesIn_congr
    intro x _ hx
    exact dataExt_preload env (hT.2.2 x (by omega)).2
  have hev : evalsRange Q 0 (b + 1) = evalsRange P 0 (b + 1) := by
    apply evalsRange_congr
    intro i _ hi
    exact evalsAt_congr i (hT.2.2 i (by omega)).1 (hT.2.2 i (by omega)).2
      (fun x hx => hT.2.1 x (by omega))
  refine ⟨hintEntriesIn env Q P.length Q.length, ?_, ?_, ?_, ?_, ?_⟩
  · rw [hsw, hrw, mirrorState_of_some env P b hfb, mirrorState_of_some env Q b hfb']
    dsimp only
    rw [hmirr,
      hintEntriesIn_split env Q (b + 1) P.length Q.length (by omega) hlen,
      hhint1, List.append_assoc]
  · intro en hen
    obtain ⟨j, l, _, _, rfl, _⟩ := mem_hintEntriesIn env Q P.length Q.length en hen
    exact ⟨j, l, rfl⟩
  · rw [hsw, hrw, mirrorState_of_some env P b hfb, mirrorState_of_some env Q b hfb']
  · rw [hsw, hrw, mirrorState_of_some env P b hfb, mirrorState_of_some env Q b hfb']
    dsimp only
    exact hev
  · rw [hsw, mirrorState_of_some env Q b hfb']

theorem write_while_blocked_only_lookahead_witness :
    ∃ hints,
      (stepWrite []
        (runWrites []
          [[ParseEvent.node none
              (.elem { plainElem "SCRIPT" with srcAttr := some "app.js" })]])
        [ParseEvent.node none (.elem (plainElem "P"))]).live =
        (runWrites []
          [[ParseEvent.node none
              (.elem { plainElem "SCRIPT" with srcAttr := some "app.js" })]]).live
          ++ hints ∧
      (∀ en, en ∈ hints → ∃ j l,
        en = ⟨.preload j, none, .preloadContent l⟩) ∧
      (stepWrite []
        (runWrites []
          [[ParseEvent.node none
              (.elem { plainElem "SCRIPT" with srcAttr := some "app.js" })]])
        [ParseEvent.node none (.elem (plainElem "P"))]).walkerPos =
        (runWrites []
          [[ParseEvent.node none
              (.elem { plainElem "SCRIPT" with srcAttr := some "app.js" })]]).walkerPos ∧
      (stepWrite []
        (runWrites []
          [[ParseEvent.node none
              (.elem { plainElem "SCRIPT" with srcAttr := some "app.js" })]])
        [ParseEvent.node none (.elem (plainElem "P"))]).evals =
        (runWrites []
          [[ParseEvent.node none
              (.elem { plainElem "SCRIPT" with srcAttr := some "app.js" })]]).evals ∧
      (stepWrite []
        (runWrites []
          [[ParseEvent.node none
              (.elem { plainElem "SCRIPT" with srcAttr := some "app.js" })]])
        [ParseEvent.node none (.elem (plainElem "P"))]).isBlocked = true :=
  write_while_blocked_only_lookahead []
    [[ParseEvent.node none
        (.elem { plainElem "SCRIPT" with srcAttr := some "app.js" })]]
    _ 0 [ParseEvent.node none (.elem (plainElem "P"))]
    rfl (by decide) (by decide)
    (findBlockFrom_intro_some [] _ 0 0 (Nat.le_refl 0) (by decide) (by decide)
      (fun i _ hi => absurd hi (Nat.not_lt_zero i)))

theorem hintEntriesIn_empty (env : List String) (P : List PNode) (a c : Nat)
    (h : c ≤ a) : hintEntriesIn env P a c = [] := by
  unfold hintEntriesIn
  have hz : c - a = 0 := by omega
  simp [hz]

theorem countId_mirrorRange_preload (P : List PNode) (a c j : Nat) :
    countId (mirrorRange P a c) (.preload j) = 0 := by
  unfold countId
  rw [List.length_eq_zero, List.filter_eq_nil_iff]
  intro en hen
  rcases mem_mirrorRange_id P a c en hen with ⟨i2, _, _, hid⟩ | ⟨pt, hid⟩ <;>
    simp [hid, beq_iff_eq]

theorem countId_hintEntriesIn_preload (env : List String) (P : List PNode)
    (j : Nat) : ∀ a c, countId (hintEntriesIn env P a c) (.preload j) =
      if a ≤ j ∧ j < c ∧ hintable env P j = true then 1 else 0 := by
  intro a c
  induction' hn : c - a with m ih generalizing a
  · rw [hintEntriesIn_empty env P a c (by omega), if_neg (by omega)]
    rfl
  · have h1 : countId (hintEntriesIn env P a (a + 1)) (.preload j) =
        if a = j ∧ hintable env P a = true then 1 else 0 := by
      unfold hintEntriesIn
      have hone : a + 1 - a = 1 := by omega
      rw [hone, List.range'_one, List.filterMap_cons, List.filterMap_nil]
      unfold hintable
      cases hg : getPreloadLinkData env (nodeAt P a).data with
      | none =>
        rw [if_neg (by simp [hg])]
        rfl
      | some l =>
        simp only [Option.map_some']
        by_cases haj : a = j
        · subst haj
          rw [if_pos ⟨rfl, by simp [hg]⟩]
          simp [countId]
        · rw [if_neg (fun hc => haj hc.1)]
          simp [countId, haj]
    rw [hintEntriesIn_split env P a (a + 1) c (by omega) (by omega),
      countId_append, h1, ih (a + 1) (by omega)]
    by_cases haj : a = j
    · subst haj
      by_cases hh : hintable env P a = true
      · rw [if_pos ⟨rfl, hh⟩, if_neg (by omega),
          if_pos ⟨Nat.le_refl a, by omega, hh⟩]
      · rw [if_neg (fun hc => hh hc.2), if_neg (fun hc => hh hc.2.2),
          if_neg (fun hc => hh hc.2.2)]
    · rw [if_neg (fun hc => haj hc.1)]
      by_cases hcls : a + 1 ≤ j ∧ j < c ∧ hintable env P j = true
      · rw [if_pos hcls, if_pos ⟨by omega, hcls.2⟩]
      · rw [if_neg hcls, if_neg (fun hc => hcls ⟨by omega, hc.2⟩)]

/-- The shadow mapping `targetNodes` after the walk has processed
`walkerPos` parse nodes: `targetNodes.set(node, clone)` (line 167) maps
every walked parse node to its clone — preload hint links are inserted into
the target (line 141) without ever being registered here. -/
def shadowMap (st : SState) : List (Nat × LiveId) :=
  (List.range st.walkerPos).map fun i => (i, .clone i)

/-- C5: while blocked at node `b`, the lookahead gives every eligible
loadable node strictly after `b` exactly one preload hint — the hint log
counts it once and exactly one `preload` link for it sits in the live target
— and no parse node is ever scanned twice (the scan log, accumulated across
all pauses and writes, has no duplicates).  A hint's own `load`/`error`
event removes exactly that link and nothing else; hints are never
registered in the shadow mapping `targetNodes`; and in the fully drained
session every hint entry still present sits outside the mirrored structure
(no live parent) and carries link content, never mirrored node content. -/
theorem lookahead_preloads_once (env : List String)
    (css : List (List ParseEvent)) (P : List PNode) (b : Nat)
    (hP : P = applyEvents [] css.flatten)
    (hwf : wfEvents [] css.flatten = true)
    (hfb : findBlockFrom env P 0 = some b) :
    (runWrites env css).scanLog.Nodup ∧
    (∀ j, b < j → j < P.length → hintable env P j = true →
      (runWrites env css).hintLog.count j = 1 ∧
      countId (runWrites env css).live (.preload j) = 1) ∧
    (∀ j, hintable env P j = false →
      countId (runWrites env css).live (.preload j) = 0) ∧
    (∀ j, (stepPreloadEvent (runWrites env css) j).live =
        (runWrites env css).live.filter (fun en => en.id ≠ .preload j) ∧
      countId (stepPreloadEvent (runWrites env css) j).live (.preload j) = 0 ∧
      (∀ en, en ∈ (runWrites env css).live → en.id ≠ .preload j →
        en ∈ (stepPreloadEvent (runWrites env css) j).live)) ∧
    (∀ pr, pr ∈ shadowMap (runWrites env css) → ∀ j, pr.2 ≠ LiveId.preload j) ∧
    (∀ en, en ∈ (sessionRun env css).live → ∀ j, en.id = .preload j →
      en.parentL = none ∧ ∃ l, en.content = .preloadContent l) := by
  subst hP
  set P := applyEvents [] css.flatten with hPdef
  have hbsome := findBlockFrom_some env P 0 b hfb
  have hrw := runWrites_eq env css hwf
  have hms := mirrorState_of_some env P b hfb
  refine ⟨?_, ?_, ?_, ?_, ?_, ?_⟩
  · rw [hrw, hms]
    exact List.nodup_range' (b + 1) (P.length - (b + 1))
  · intro j hj hjl hh
    constructor
    · rw [hrw, hms]
      dsimp only
      apply List.count_eq_one_of_mem
      · exact (List.nodup_range' (b + 1) (P.length - (b + 1))).filter _
      · rw [List.mem_filter]
        exact ⟨List.mem_range'_1.mpr ⟨by omega, by omega⟩, hh⟩
    · rw [hrw, hms]
      dsimp only
      rw [countId_append, countId_mirrorRange_preload,
        countId_hintEntriesIn_preload, if_pos ⟨by omega, hjl, hh⟩]
  · intro j hh
    rw [hrw, hms]
    dsimp only
    rw [countId_append, countId_mirrorRange_preload,
      countId_hintEntriesIn_preload,
      if_neg (fun hc => by rw [hh] at hc; exact absurd hc.2.2 (by simp))]
  · intro j
    refine ⟨rfl, ?_, ?_⟩
    · unfold stepPreloadEvent countId
      dsimp only
      rw [List.length_eq_zero, List.filter_eq_nil_iff]
      intro en hen
      have h2 := (List.mem_filter.mp hen).2
      simp only [decide_not, Bool.not_eq_true', decide_eq_false_iff_not] at h2
      simp [beq_iff_eq, h2]
    · intro en hen hne
      unfold stepPreloadEvent
      dsimp only
      exact List.mem_filter.mpr ⟨hen, by simp [hne]⟩
  · intro pr hpr j
    unfold shadowMap at hpr
    rw [List.mem_map] at hpr
    obtain ⟨i, _, rfl⟩ := hpr
    simp
  · intro en hen j hid
    have hsr : sessionRun env css = drainedState env P b := by
      rw [sessionRun_eq env css hwf]
      rw [← hPdef, hfb]
    rw [hsr] at hen
    dsimp only [drainedState] at hen
    rcases List.mem_append.mp hen with hen | hen
    · rcases List.mem_append.mp hen with hen | hen
      · rcases mem_mirrorRange_id P 0 (b + 1) en hen with ⟨i2, _, _, hid2⟩ | ⟨pt, hid2⟩ <;>
          rw [hid2] at hid <;> cases hid
      · obtain ⟨j2, l, _, _, rfl, _⟩ :=
          mem_hintEntriesIn env P (b + 1) P.length en hen
        exact ⟨rfl, l, rfl⟩
    · rcases mem_mirrorRange_id P (b + 1) P.length en hen with ⟨i2, _, _, hid2⟩ | ⟨pt, hid2⟩ <;>
        rw [hid2] at hid <;> cases hid

theorem lookahead_preloads_once_witness :
    (runWrites []
      [[ParseEvent.node none
          (.elem { plainElem "SCRIPT" with srcAttr := some "app.js" }),
        ParseEvent.node none
          (.elem { plainElem "IMG" with srcAttr := some "i.png" })]]).scanLog.Nodup :=
  (lookahead_preloads_once []
    [[ParseEvent.node none
        (.elem { plainElem "SCRIPT" with srcAttr := some "app.js" }),
      ParseEvent.node none
        (.elem { plainElem "IMG" with srcAttr := some "i.png" })]]
    _ 0 rfl (by decide)
    (findBlockFrom_intro_some [] _ 0 0 (Nat.le_refl 0) (by decide) (by decide)
      (fun i _ hi => absurd hi (Nat.not_lt_zero i)))).1

/-- C6: `close()` always appends the flush of the remaining pending text
into the inline host and the evaluation of that host when it is a script;
the promise it returns is already resolved whenever the session is not
blocked; and when a blocking node is outstanding the promise is pending at
close time and resolves exactly through the drain — once the block clears,
the walk mirrors every remaining parse node (the walker ends at the end of
the stream) and the session ends resolved and unblocked. -/
theorem close_flushes_and_resolves (env : List String)
    (css : List (List ParseEvent)) (P : List PNode)
    (hP : P = applyEvents [] css.flatten)
    (hwf : wfEvents [] css.flatten = true) :
    (∀ st : SState,
      (stepClose st).live =
        st.live ++ flushEntries st.parsed st.pendingText st.inlineHost ∧
      (stepClose st).evals = st.evals ++ hostEvals st.parsed st.inlineHost ∧
      (st.isBlocked = false → (stepClose st).resolved = true)) ∧
    (findBlockFrom env P 0 = none →
      (stepClose (runWrites env css)).resolved = true) ∧
    (∀ b, findBlockFrom env P 0 = some b →
      (stepClose (runWrites env css)).resolved = false ∧
      (stepClose (runWrites env css)).closeWaiter = true ∧
      (sessionRun env css).resolved = true ∧
      (sessionRun env css).isBlocked = false ∧
      (sessionRun env css).walkerPos = P.length) := by
  subst hP
  set P := applyEvents [] css.flatten with hPdef
  have hPwf : wfParse P = true := wfParse_applyEvents css.flatten [] rfl hwf
  have hrw := runWrites_eq env css hwf
  refine ⟨?_, ?_, ?_⟩
  · intro st
    refine ⟨?_, ?_, ?_⟩
    · unfold stepClose
      dsimp only
      split <;> rfl
    · unfold stepClose
      dsimp only
      split <;> rfl
    · intro hnb
      unfold stepClose
      dsimp only
      rw [if_neg (by rw [hnb]; exact Bool.false_ne_true)]
  · intro hfb
    rw [hrw, mirrorState_of_none env P hfb]
    rfl
  · intro b hfb
    have hsc : stepClose (mirrorState env P) = drainMid env P b b :=
      stepClose_blocked env P b hPwf hfb
    have hsr : sessionRun env css = drainedState env P b := by
      rw [sessionRun_eq env css hwf]
      rw [← hPdef, hfb]
    rw [hrw, hsc, hsr]
    exact ⟨rfl, rfl, rfl, rfl, rfl⟩

theorem close_flushes_and_resolves_witness :
    (stepClose initState).resolved = true :=
  ((close_flushes_and_resolves []
    [[ParseEvent.node none (.elem (plainElem "DIV"))]]
    _ rfl (by decide)).1 initState).2.2 rfl
